import Mathlib

/-!
Verification of the structured-text extraction engine of the gizmo repository
(src/mupdf/mupdf_adapter.go, src/mupdf/stext_json.go).

The Go code is shallowly embedded: float64 font sizes become ℚ, the external
mutool subprocess is replaced by the decoded page list it would return, Go maps
become association lists (with the deterministic sort the code applies before
use), and `strings.TrimSpace` / `strings.Builder` become list-based string
operations.  Machine `int` values (page numbers, histogram keys, counts) are
ℤ / ℕ as appropriate; none of the quantities involved can overflow in the
scenarios modelled.
-/

/-! ### Rounding (math.Round with the fixed +0.5 bias, mupdf_adapter.go:427-438)

`int(math.Round(sz + eps))` with `eps = 0.5`.  Go's `math.Round` rounds half
away from zero; the outer `int()` truncation is the identity on the integral
result.  `addHalf` computes `x + 1/2` on raw numerator/denominator so that the
kernel can evaluate it (Mathlib's field operations on ℚ do not reduce).
-/

def addHalf (x : ℚ) : ℚ := Rat.divInt (2 * x.num + x.den) (2 * x.den)

/-- Go `math.Round`: nearest integer, half away from zero. -/
def goRound (x : ℚ) : ℤ :=
  if 0 ≤ x then Rat.floor (addHalf x) else - Rat.floor (addHalf (-x))

/-- The histogram bucket of a font size: `int(math.Round(sz + 0.5))`. -/
def bucket (sz : ℚ) : ℤ := goRound (addHalf sz)

/-! ### Strings

Lean 4.14's `String` is a structure holding a `List Char`; `trimSpace` models
Go's `strings.TrimSpace` (drop leading and trailing whitespace). -/

def trimChars (l : List Char) : List Char :=
  ((l.dropWhile Char.isWhitespace).reverse.dropWhile Char.isWhitespace).reverse

def trimSpace (s : String) : String := ⟨trimChars s.data⟩

/-- Go `strings.Join(parts, " | ")`. -/
def joinSep : List String → String
  | [] => ""
  | [s] => s
  | s :: rest => s ++ " | " ++ joinSep rest

/-! ### Data model (stext_json.go)

Fields the algorithm never reads (bbox, wmode, positions, font name/family/
weight/style) are omitted from the embedding. -/

structure Font where
  size : ℚ
deriving DecidableEq

structure Line where
  text : String
  font : Font
deriving DecidableEq

structure Block where
  type : String
  lines : List Line
deriving DecidableEq

structure Page where
  blocks : List Block
deriving DecidableEq

/-- Output unit (mupdf_adapter.go:236-240). -/
structure StructuredBlock where
  headerHierarchy : String
  text : String
  pageNumber : ℕ
deriving DecidableEq

/-! ### Pass 1: font histogram (updateFontFreq, mupdf_adapter.go:427-438)

The Go map `map[int]int` is an association list with pairwise-distinct keys;
`incr` is `freq[sz]++` (update in place, or append a fresh key with count 1).
-/

def incr : List (ℤ × ℕ) → ℤ → List (ℤ × ℕ)
  | [], k => [(k, 1)]
  | (a, c) :: t, k => if a = k then (a, c + 1) :: t else (a, c) :: incr t k

def lookup : List (ℤ × ℕ) → ℤ → ℕ
  | [], _ => 0
  | (a, c) :: t, k => if a = k then c else lookup t k

/-- mupdf_adapter.go:427-438: every line of every `"text"` block contributes
`bucket line.font.size`; other block types are skipped. -/
def updateFontFreq (freq : List (ℤ × ℕ)) (page : Page) : List (ℤ × ℕ) :=
  page.blocks.foldl
    (fun f blk =>
      if blk.type ≠ "text" then f
      else blk.lines.foldl (fun f2 ln => incr f2 (bucket ln.font.size)) f)
    freq

/-! ### Threshold selection (thresholdsFromFreq, mupdf_adapter.go:441-459) -/

def insertDesc (x : ℤ) : List ℤ → List ℤ
  | [] => [x]
  | y :: t => if y ≤ x then x :: y :: t else y :: insertDesc x t

/-- `sort.Sort(sort.Reverse(sort.IntSlice(sizes)))`: descending sort. -/
def sortDesc (l : List ℤ) : List ℤ := l.foldr insertDesc []

def noTextMsg : String := "no text detected in PDF"

def emptyDocMsg : String := "empty PDF or page count undetected"

/-- The three largest distinct rounded sizes, as float64 in Go (ℚ here);
missing levels are the sentinel 0.  The final `[]` branch is unreachable:
a non-empty map has a non-empty key list. -/
def thresholdsFromFreq (freq : List (ℤ × ℕ)) : Except String (ℚ × ℚ × ℚ) :=
  if freq = [] then Except.error noTextMsg
  else
    match sortDesc (freq.map Prod.fst) with
    | [a] => Except.ok ((a : ℚ), 0, 0)
    | [a, b] => Except.ok ((a : ℚ), (b : ℚ), 0)
    | a :: b :: c :: _ => Except.ok ((a : ℚ), (b : ℚ), (c : ℚ))
    | [] => Except.error noTextMsg

/-! ### Pass 2: classification and aggregation (mupdf_adapter.go:290-403) -/

/-- mupdf_adapter.go:290-301, first-match-wins descending comparison.
Go returns "" for body text. -/
def classify (title sec sub sz : ℚ) : String :=
  if 0 < title ∧ title ≤ sz then "Title"
  else if 0 < sec ∧ sec ≤ sz then "Section"
  else if 0 < sub ∧ sub ≤ sz then "Subsection"
  else ""

/-- mupdf_adapter.go:352-363 (`maxSize` accumulator, initially 0). -/
def blockMaxSize (blk : Block) : ℚ :=
  blk.lines.foldl (fun m ln => if m < ln.font.size then ln.font.size else m) 0

/-- mupdf_adapter.go:353-363 (`lineBuilder`): trimmed non-empty line texts,
each followed by one space. -/
def blockLineText (blk : Block) : String :=
  blk.lines.foldl
    (fun acc ln =>
      let t := trimSpace ln.text
      if t ≠ "" then acc ++ t ++ " " else acc)
    ""

/-- mupdf_adapter.go:364: the block's concatenated, whitespace-trimmed text. -/
def blockText (blk : Block) : String := trimSpace (blockLineText blk)

/-- The mutable pass-2 state (mupdf_adapter.go:303-309): current heading
stack, in-progress aggregate, and blocks emitted so far. -/
structure AggState where
  curTitle : String
  curSection : String
  curSubsection : String
  aggHierarchy : String
  aggPage : ℕ
  aggBuf : String
  blocks : List StructuredBlock
deriving DecidableEq

def initState : AggState :=
  { curTitle := "", curSection := "", curSubsection := "",
    aggHierarchy := "", aggPage := 0, aggBuf := "", blocks := [] }

/-- mupdf_adapter.go:311-321 (`flush`): emit the aggregate if the buffer is
non-empty; `aggHierarchy` and `aggPage` are (deliberately, per source) not
reset. -/
def flushState (st : AggState) : AggState :=
  if st.aggBuf = "" then st
  else
    { st with
      blocks := st.blocks ++
        [{ headerHierarchy := st.aggHierarchy,
           text := trimSpace st.aggBuf,
           pageNumber := st.aggPage }],
      aggBuf := "" }

/-- mupdf_adapter.go:323-335 (`buildHierarchy`): non-empty levels joined by
`" | "`. -/
def buildHierarchy (st : AggState) : String :=
  joinSep (([st.curTitle, st.curSection, st.curSubsection]).filter (fun p => p ≠ ""))

/-- One text block of pass 2 (mupdf_adapter.go:348-393).  `pageNo` is the
absolute page number `start + i` of the page containing the block. -/
def processBlock (title sec sub : ℚ) (pageNo : ℕ) (st : AggState) (blk : Block) :
    AggState :=
  if blk.type ≠ "text" then st
  else
    let text := blockText blk
    if text = "" then st
    else
      let cls := classify title sec sub (blockMaxSize blk)
      if cls = "Title" then
        let st1 := flushState st
        { st1 with curTitle := text, curSection := "", curSubsection := "" }
      else if cls = "Section" then
        let st1 := flushState st
        { st1 with curSection := text, curSubsection := "" }
      else if cls = "Subsection" then
        let st1 := flushState st
        { st1 with curSubsection := text }
      else
          let h := buildHierarchy st
          if h = "" then st
          else
            let st1 :=
              if h ≠ st.aggHierarchy then
                let st2 := flushState st
                { st2 with aggHierarchy := h, aggPage := pageNo }
              else st
            let st2 :=
              if st1.aggBuf ≠ "" then { st1 with aggBuf := st1.aggBuf ++ "\n\n" }
              else st1
            { st2 with aggBuf := st2.aggBuf ++ text }

def processPage (title sec sub : ℚ) (pageNo : ℕ) (st : AggState) (page : Page) :
    AggState :=
  page.blocks.foldl (processBlock title sec sub pageNo) st

/-- `for i, page := range pages { ... start + i ... }` (mupdf_adapter.go:347). -/
def processBatch (title sec sub : ℚ) (start : ℕ) (pages : List Page)
    (st : AggState) : AggState :=
  pages.enum.foldl (fun s ip => processPage title sec sub (start + ip.1) s ip.2) st

/-! ### Batching (mupdf_adapter.go:269-280, 340-398)

`for start := 1; start <= pageCount; start += batchSize` with
`end = min(start+batchSize-1, pageCount)`; `loadPagesBatch` returns the pages
`start..end`, i.e. successive chunks of `K` pages with their 1-based start
page.  The recursion is fueled by the list length so that it is structural
(and hence kernel-evaluable); the fuel never runs out. -/

def chunksFromFuel (K : ℕ) : ℕ → ℕ → List Page → List (ℕ × List Page)
  | _, _, [] => []
  | 0, _, _ :: _ => []
  | fuel + 1, start, p :: rest =>
      (start, p :: rest.take (K - 1)) ::
        chunksFromFuel K fuel (start + K) (rest.drop (K - 1))

def chunksFrom (K start : ℕ) (doc : List Page) : List (ℕ × List Page) :=
  chunksFromFuel K doc.length start doc

/-- Pass 1 over all batches (mupdf_adapter.go:268-280). -/
def pass1 (K : ℕ) (doc : List Page) : List (ℤ × ℕ) :=
  (chunksFrom K 1 doc).foldl (fun f b => b.2.foldl updateFontFreq f) []

/-- Pass 2 over all batches plus the final flush (mupdf_adapter.go:340-400). -/
def runPass2 (title sec sub : ℚ) (K : ℕ) (doc : List Page) :
    List StructuredBlock :=
  (flushState
    ((chunksFrom K 1 doc).foldl
      (fun st b => processBatch title sec sub b.1 b.2 st) initState)).blocks

/-- ExtractStructuredText (mupdf_adapter.go:247-403), parametrised by the
batch size; `doc` is the decoded page list (its length is the page count). -/
def ExtractStructuredTextK (K : ℕ) (doc : List Page) :
    Except String (List StructuredBlock) :=
  if doc.length = 0 then Except.error emptyDocMsg
  else
    match thresholdsFromFreq (pass1 K doc) with
    | Except.error e => Except.error e
    | Except.ok (t, s, u) => Except.ok (runPass2 t s u K doc)

def batchSize : ℕ := 100

/-- The production entry point: fixed batch size 100 (mupdf_adapter.go:32). -/
def ExtractStructuredText (doc : List Page) : Except String (List StructuredBlock) :=
  ExtractStructuredTextK batchSize doc

/-- Modelled from the spec (§8 batch-boundary transparency): the reference
behaviour of processing the whole document as one single batch. -/
def extractSingleBatch (doc : List Page) : Except String (List StructuredBlock) :=
  if doc.length = 0 then Except.error emptyDocMsg
  else
    match thresholdsFromFreq (doc.foldl updateFontFreq []) with
    | Except.error e => Except.error e
    | Except.ok (t, s, u) =>
        Except.ok (flushState (processBatch t s u 1 doc initState)).blocks

instance {e a : Type} [DecidableEq e] [DecidableEq a] : DecidableEq (Except e a) :=
  fun x y =>
    match x, y with
    | Except.error v, Except.error w => decidable_of_iff (v = w) (by simp)
    | Except.ok v, Except.ok w => decidable_of_iff (v = w) (by simp)
    | Except.error _, Except.ok _ => isFalse (fun h => Except.noConfusion h)
    | Except.ok _, Except.error _ => isFalse (fun h => Except.noConfusion h)

/-! ### Concrete documents used as witnesses and counterexamples -/

def mkLine (t : String) (sz : ℚ) : Line := { text := t, font := { size := sz } }

def txtBlock (t : String) (sz : ℚ) : Block := { type := "text", lines := [mkLine t sz] }

def imgBlock : Block := { type := "image", lines := [] }

/-- Three pages; the heading (size 20) repeats on page 2, so the hierarchy
string recurs after a flush while `aggPage` still holds page 1. -/
def staleDoc : List Page :=
  [ { blocks := [txtBlock "Heading" 20, txtBlock "First body." 10] },
    { blocks := [txtBlock "Heading" 20] },
    { blocks := [txtBlock "Second body." 10] } ]

/-- One page whose single line has font size 12 (every line shares one size). -/
def singleDoc : List Page := [ { blocks := [txtBlock "Hello" 12] } ]

/-- The spec's end-to-end resume scenario, parametrised by the three font
sizes and the two body paragraph texts. -/
def resumeDoc (tT tH tB : ℚ) (b1 b2 : String) : List Page :=
  [ { blocks := [txtBlock "Resume Title" tT, txtBlock "Experience" tH, txtBlock b1 tB] },
    { blocks := [txtBlock "Education" tH, txtBlock b2 tB] },
    { blocks := [imgBlock] } ]

/-! ### Rounding lemmas -/

theorem ratFloor_eq (q : ℚ) : Rat.floor q = ⌊q⌋ := by
  rw [Rat.floor_def, Rat.floor_def']

theorem addHalf_eq (x : ℚ) : addHalf x = x + 1/2 := by
  have hd : ((x.den : ℚ)) ≠ 0 := by exact_mod_cast x.den_nz
  rw [addHalf, Rat.divInt_eq_div]
  conv_rhs => rw [← Rat.num_div_den x]
  push_cast
  field_simp
  ring

theorem goRound_eq_of_nonneg (x : ℚ) (h : 0 ≤ x) : goRound x = ⌊x + 1/2⌋ := by
  rw [goRound, if_pos h, ratFloor_eq, addHalf_eq]

theorem bucket_eq (s : ℚ) (h : 0 ≤ s) : bucket s = ⌊s + 1⌋ := by
  have h1 : (0:ℚ) ≤ s + 1/2 := by
    rw [← addHalf_eq]
    rw [addHalf_eq]
    linarith
  rw [bucket, addHalf_eq, goRound_eq_of_nonneg _ h1]
  congr 1
  ring

theorem bucket_gt (s : ℚ) (h : 0 ≤ s) : s < (bucket s : ℚ) := by
  rw [bucket_eq s h]
  have h2 := Int.sub_one_lt_floor (s + 1)
  push_cast at h2 ⊢
  linarith

theorem bucket_le (s : ℚ) (h : 0 ≤ s) : (bucket s : ℚ) ≤ s + 1 := by
  rw [bucket_eq s h]
  exact_mod_cast Int.floor_le (s + 1)

theorem bucket_mono (s t : ℚ) (hs : 0 ≤ s) (hst : s ≤ t) : bucket s ≤ bucket t := by
  rw [bucket_eq s hs, bucket_eq t (le_trans hs hst)]
  exact Int.floor_mono (by linarith)

theorem bucket_pos (s : ℚ) (h : 0 ≤ s) : 0 < bucket s := by
  rw [bucket_eq s h]
  exact Int.floor_pos.mpr (by linarith)

/-! ### Whitespace-trim lemmas -/

theorem length_dropWhile_le {α : Type} (p : α → Bool) (l : List α) :
    (l.dropWhile p).length ≤ l.length := by
  induction l with
  | nil => simp
  | cons c t ih =>
      by_cases h : p c
      · rw [List.dropWhile_cons, if_pos h]
        simp only [List.length_cons]
        omega
      · rw [List.dropWhile_cons, if_neg h]

theorem dropWhile_idem {α : Type} (p : α → Bool) (l : List α) :
    (l.dropWhile p).dropWhile p = l.dropWhile p := by
  induction l with
  | nil => rfl
  | cons c t ih =>
      by_cases h : p c
      · rw [List.dropWhile_cons, if_pos h, ih]
      · rw [List.dropWhile_cons, if_neg h, List.dropWhile_cons, if_neg h]

theorem head_false_of_dropWhile_self {α : Type} (p : α → Bool) (c : α) (t : List α)
    (h : List.dropWhile p (c :: t) = c :: t) : p c = false := by
  by_contra hc
  have hc2 : p c = true := by simpa using hc
  rw [List.dropWhile_cons, if_pos hc2] at h
  have h1 := length_dropWhile_le p t
  have h2 := congrArg List.length h
  simp only [List.length_cons] at h2
  omega

/-- The right-trim `(l.reverse.dropWhile ..).reverse` is a prefix of `l`. -/
theorem rtrim_prefix (l : List Char) :
    ∃ t, l = (l.reverse.dropWhile Char.isWhitespace).reverse ++ t := by
  refine ⟨(l.reverse.takeWhile Char.isWhitespace).reverse, ?_⟩
  conv_lhs =>
    rw [← l.reverse_reverse,
      ← List.takeWhile_append_dropWhile Char.isWhitespace l.reverse]
  rw [List.reverse_append]

theorem trimChars_ltrimmed (l : List Char) :
    (trimChars l).dropWhile Char.isWhitespace = trimChars l := by
  have hA : (l.dropWhile Char.isWhitespace).dropWhile Char.isWhitespace
      = l.dropWhile Char.isWhitespace := dropWhile_idem _ l
  obtain ⟨t, ht⟩ := rtrim_prefix (l.dropWhile Char.isWhitespace)
  cases hr : trimChars l with
  | nil => rfl
  | cons c z =>
      rw [trimChars] at hr
      rw [hr] at ht
      have hct : l.dropWhile Char.isWhitespace = c :: (z ++ t) := by
        rw [ht]; rfl
      rw [hct] at hA
      have hc := head_false_of_dropWhile_self Char.isWhitespace c (z ++ t) hA
      rw [List.dropWhile_cons, if_neg (by simp [hc])]

theorem trimChars_rtrimmed (l : List Char) :
    (trimChars l).reverse.dropWhile Char.isWhitespace = (trimChars l).reverse := by
  rw [trimChars, List.reverse_reverse]
  exact dropWhile_idem _ _

theorem trimChars_idem (l : List Char) : trimChars (trimChars l) = trimChars l := by
  conv_lhs => rw [trimChars, trimChars_ltrimmed, trimChars_rtrimmed,
    List.reverse_reverse]

theorem trimChars_nil_iff (l : List Char) :
    trimChars l = [] ↔ ∀ c ∈ l, c.isWhitespace = true := by
  constructor
  · intro h c hc
    rw [trimChars] at h
    have h1 : (l.dropWhile Char.isWhitespace).reverse.dropWhile Char.isWhitespace
        = [] := by
      have := congrArg List.reverse h
      rwa [List.reverse_reverse] at this
    have h2 : ∀ x ∈ (l.dropWhile Char.isWhitespace).reverse,
        Char.isWhitespace x = true := List.dropWhile_eq_nil_iff.mp h1
    rw [← List.takeWhile_append_dropWhile Char.isWhitespace l] at hc
    rcases List.mem_append.mp hc with hm | hm
    · exact List.mem_takeWhile_imp hm
    · exact h2 c (List.mem_reverse.mpr hm)
  · intro h
    rw [trimChars, List.dropWhile_eq_nil_iff.mpr h]
    rfl

theorem trimChars_append_space (l : List Char) :
    trimChars (trimChars l ++ [' ']) = trimChars l := by
  cases hr : trimChars l with
  | nil => rfl
  | cons c z =>
      have hc : Char.isWhitespace c = false := by
        have h1 := trimChars_ltrimmed l
        rw [hr] at h1
        exact head_false_of_dropWhile_self _ c z h1
      have h4 := trimChars_rtrimmed l
      rw [hr] at h4
      have h2 : (c :: z) ++ [' '] = c :: (z ++ [' ']) := rfl
      have h3 : ((c :: z) ++ [' ']).reverse = ' ' :: (c :: z).reverse := by
        rw [List.reverse_append]
        rfl
      rw [trimChars, h2, List.dropWhile_cons, if_neg (by simp [hc]), ← h2, h3,
        List.dropWhile_cons, if_pos (by decide), h4, List.reverse_reverse]

theorem string_eq_iff_data (a b : String) : a = b ↔ a.data = b.data :=
  ⟨fun h => by rw [h], String.ext⟩

theorem trimSpace_idem (s : String) : trimSpace (trimSpace s) = trimSpace s :=
  String.ext (trimChars_idem s.data)

theorem trimSpace_empty_iff (s : String) :
    trimSpace s = "" ↔ ∀ c ∈ s.data, c.isWhitespace = true := by
  rw [string_eq_iff_data]
  exact trimChars_nil_iff s.data

theorem trimSpace_append_space (s : String) :
    trimSpace (trimSpace s ++ " ") = trimSpace s :=
  String.ext (trimChars_append_space s.data)

theorem exists_nonwhite_of_trimSpace_ne (s : String) (h : trimSpace s ≠ "") :
    ∃ c ∈ (trimSpace s).data, c.isWhitespace = false := by
  have h2 : trimSpace (trimSpace s) ≠ "" := by
    rwa [trimSpace_idem]
  have h3 : ¬ ∀ c ∈ (trimSpace s).data, c.isWhitespace = true := by
    intro hall
    exact h2 ((trimSpace_empty_iff (trimSpace s)).mpr hall)
  push_neg at h3
  obtain ⟨c, hc, hw⟩ := h3
  exact ⟨c, hc, by simpa using hw⟩

theorem trimSpace_ne_of_exists (s : String)
    (h : ∃ c ∈ s.data, c.isWhitespace = false) : trimSpace s ≠ "" := by
  intro he
  rw [trimSpace_empty_iff] at he
  obtain ⟨c, hc, hw⟩ := h
  rw [he c hc] at hw
  exact Bool.noConfusion hw

theorem data_append (a b : String) : (a ++ b).data = a.data ++ b.data := rfl

/-! ### Single-line block helpers -/

theorem blockText_single (t : String) (sz : ℚ) :
    blockText (txtBlock t sz) = trimSpace t := by
  by_cases h : trimSpace t = ""
  · rw [blockText, blockLineText, txtBlock]
    simp only [mkLine, List.foldl_cons, List.foldl_nil, h]
    rw [if_neg (by simp)]
    decide
  · rw [blockText, blockLineText, txtBlock]
    simp only [mkLine, List.foldl_cons, List.foldl_nil]
    rw [if_pos (by simpa using h)]
    have he : ("" : String) ++ trimSpace t ++ " " = trimSpace t ++ " " := by
      rw [string_eq_iff_data]
      rfl
    rw [he, trimSpace_append_space]

theorem blockMaxSize_single (t : String) (sz : ℚ) (h : 0 ≤ sz) :
    blockMaxSize (txtBlock t sz) = sz := by
  rw [blockMaxSize, txtBlock]
  simp only [mkLine, List.foldl_cons, List.foldl_nil]
  rcases lt_or_eq_of_le h with h1 | h1
  · rw [if_pos h1]
  · rw [if_neg (by rw [← h1]; exact lt_irrefl 0), ← h1]

/-! ### Histogram lemmas -/

def keysOf (freq : List (ℤ × ℕ)) : List ℤ := freq.map Prod.fst

def blockBuckets (b : Block) : List ℤ := b.lines.map (fun ln => bucket ln.font.size)

/-- All buckets contributed by a page: one per line of each `"text"` block. -/
def textLineBuckets (page : Page) : List ℤ :=
  ((page.blocks.filter (fun b => b.type = "text")).map blockBuckets).flatten

def incrAll (f : List (ℤ × ℕ)) (ks : List ℤ) : List (ℤ × ℕ) := ks.foldl incr f

theorem lookup_incr_self (f : List (ℤ × ℕ)) (k : ℤ) :
    lookup (incr f k) k = lookup f k + 1 := by
  induction f with
  | nil => simp [incr, lookup]
  | cons p t ih =>
      obtain ⟨a, c⟩ := p
      by_cases h : a = k
      · rw [incr, if_pos h, lookup, if_pos h, lookup, if_pos h]
      · rw [incr, if_neg h, lookup, if_neg h, lookup, if_neg h, ih]

theorem lookup_incr_other (f : List (ℤ × ℕ)) (k j : ℤ) (hjk : j ≠ k) :
    lookup (incr f k) j = lookup f j := by
  induction f with
  | nil => simp [incr, lookup, Ne.symm hjk]
  | cons p t ih =>
      obtain ⟨a, c⟩ := p
      by_cases h : a = k
      · rw [incr, if_pos h, lookup, if_neg (by rw [h]; exact fun e => hjk e.symm),
          lookup, if_neg (by rw [h]; exact fun e => hjk e.symm)]
      · rw [incr, if_neg h, lookup, lookup]
        by_cases h2 : a = j
        · rw [if_pos h2, if_pos h2]
        · rw [if_neg h2, if_neg h2, ih]

theorem mem_keysOf_incr (f : List (ℤ × ℕ)) (k j : ℤ) :
    j ∈ keysOf (incr f k) ↔ j ∈ keysOf f ∨ j = k := by
  induction f with
  | nil => simp [incr, keysOf]
  | cons p t ih =>
      obtain ⟨a, c⟩ := p
      by_cases h : a = k
      · rw [incr, if_pos h]
        simp only [keysOf, List.map_cons, List.mem_cons] at ih ⊢
        constructor
        · rintro (h1 | h1)
          · exact Or.inl (Or.inl h1)
          · exact Or.inl (Or.inr h1)
        · rintro ((h1 | h1) | h1)
          · exact Or.inl h1
          · exact Or.inr h1
          · rw [h1, ← h]
            exact Or.inl rfl
      · rw [incr, if_neg h]
        simp only [keysOf, List.map_cons, List.mem_cons] at ih ⊢
        rw [ih]
        tauto

theorem nodup_keysOf_incr (f : List (ℤ × ℕ)) (k : ℤ) (h : (keysOf f).Nodup) :
    (keysOf (incr f k)).Nodup := by
  induction f with
  | nil => simp [incr, keysOf]
  | cons p t ih =>
      obtain ⟨a, c⟩ := p
      simp only [keysOf, List.map_cons, List.nodup_cons] at h
      by_cases hk : a = k
      · rw [incr, if_pos hk]
        simp only [keysOf, List.map_cons, List.nodup_cons]
        exact h
      · rw [incr, if_neg hk]
        simp only [keysOf, List.map_cons, List.nodup_cons]
        refine ⟨?_, ih h.2⟩
        intro hmem
        rcases (mem_keysOf_incr t k a).mp hmem with h1 | h1
        · exact h.1 h1
        · exact hk h1

theorem lookup_incrAll (ks : List ℤ) (f : List (ℤ × ℕ)) (j : ℤ) :
    lookup (incrAll f ks) j = lookup f j + ks.count j := by
  induction ks generalizing f with
  | nil => simp [incrAll]
  | cons k t ih =>
      rw [incrAll, List.foldl_cons, ← incrAll, ih, List.count_cons]
      by_cases h : j = k
      · rw [h, lookup_incr_self]
        simp
        omega
      · rw [lookup_incr_other f k j h]
        have : (k == j) = false := by
          simp [Ne.symm h]
        rw [this]
        simp

theorem mem_keysOf_incrAll (ks : List ℤ) (f : List (ℤ × ℕ)) (j : ℤ) :
    j ∈ keysOf (incrAll f ks) ↔ j ∈ keysOf f ∨ j ∈ ks := by
  induction ks generalizing f with
  | nil => simp [incrAll]
  | cons k t ih =>
      rw [incrAll, List.foldl_cons, ← incrAll, ih, mem_keysOf_incr]
      simp only [List.mem_cons]
      tauto

theorem nodup_keysOf_incrAll (ks : List ℤ) (f : List (ℤ × ℕ))
    (h : (keysOf f).Nodup) : (keysOf (incrAll f ks)).Nodup := by
  induction ks generalizing f with
  | nil => exact h
  | cons k t ih =>
      rw [incrAll, List.foldl_cons, ← incrAll]
      exact ih _ (nodup_keysOf_incr f k h)

/-- `updateFontFreq` is exactly the fold of `incr` over the page's text-line
buckets. -/
theorem updateFontFreq_eq_incrAll (f : List (ℤ × ℕ)) (page : Page) :
    updateFontFreq f page = incrAll f (textLineBuckets page) := by
  obtain ⟨blocks⟩ := page
  rw [updateFontFreq, textLineBuckets]
  simp only
  induction blocks generalizing f with
  | nil => rfl
  | cons b bs ih =>
      rw [List.foldl_cons]
      by_cases h : b.type = "text"
      · rw [if_neg (by simp [h]), List.filter_cons, if_pos (by simp [h]),
          List.map_cons, List.flatten_cons]
        rw [ih]
        have hfold : b.lines.foldl (fun f2 ln => incr f2 (bucket ln.font.size)) f
            = incrAll f (blockBuckets b) := by
          rw [incrAll, blockBuckets, List.foldl_map]
        rw [hfold, incrAll, incrAll, incrAll, List.foldl_append]
      · rw [if_pos (by simp [h]), List.filter_cons, if_neg (by simp [h])]
        exact ih f

/-! ### Descending-sort lemmas -/

theorem insertDesc_perm (x : ℤ) (l : List ℤ) : (insertDesc x l).Perm (x :: l) := by
  induction l with
  | nil => exact List.Perm.refl _
  | cons y t ih =>
      rw [insertDesc]
      by_cases h : y ≤ x
      · rw [if_pos h]
      · rw [if_neg h]
        exact (ih.cons y).trans (List.Perm.swap x y t)

theorem sortDesc_perm (l : List ℤ) : (sortDesc l).Perm l := by
  induction l with
  | nil => exact List.Perm.refl _
  | cons a t ih =>
      rw [sortDesc, List.foldr_cons, ← sortDesc]
      exact (insertDesc_perm a (sortDesc t)).trans (ih.cons a)

theorem chain_insertDesc (x : ℤ) (l : List ℤ)
    (h : List.Chain' (· ≥ ·) l) : List.Chain' (· ≥ ·) (insertDesc x l) := by
  induction l with
  | nil => simp [insertDesc]
  | cons y t ih =>
      rw [insertDesc]
      by_cases hxy : y ≤ x
      · rw [if_pos hxy]
        exact h.cons hxy
      · rw [if_neg hxy]
        have hyx : x ≤ y := le_of_lt (lt_of_not_le hxy)
        rw [List.chain'_cons']
        refine ⟨?_, ih h.tail⟩
        intro z hz
        cases t with
        | nil =>
            simp [insertDesc] at hz
            rw [← hz]
            exact hyx
        | cons w t2 =>
            rw [insertDesc] at hz
            by_cases hwx : w ≤ x
            · rw [if_pos hwx] at hz
              simp at hz
              rw [← hz]
              exact hyx
            · rw [if_neg hwx] at hz
              simp at hz
              rw [← hz]
              exact (List.chain'_cons.mp h).1

theorem sortDesc_chain (l : List ℤ) : List.Chain' (· ≥ ·) (sortDesc l) := by
  induction l with
  | nil => simp [sortDesc]
  | cons a t ih =>
      rw [sortDesc, List.foldr_cons, ← sortDesc]
      exact chain_insertDesc a _ ih

theorem sortDesc_pairwise_ge (l : List ℤ) :
    List.Pairwise (· ≥ ·) (sortDesc l) :=
  List.chain'_iff_pairwise.mp (sortDesc_chain l)

theorem sortDesc_pairwise_gt (l : List ℤ) (h : l.Nodup) :
    List.Pairwise (· > ·) (sortDesc l) := by
  have hnd : (sortDesc l).Nodup := (sortDesc_perm l).nodup_iff.mpr h
  have hand := (sortDesc_pairwise_ge l).and hnd
  exact hand.imp (fun hp => lt_of_le_of_ne hp.1 (Ne.symm hp.2))

theorem sortDesc_mem (l : List ℤ) (j : ℤ) : j ∈ sortDesc l ↔ j ∈ l :=
  (sortDesc_perm l).mem_iff

theorem sortDesc_ne_nil (l : List ℤ) (h : l ≠ []) : sortDesc l ≠ [] := by
  intro he
  exact h ((sortDesc_perm l).symm.trans (he ▸ List.Perm.refl []) |>.eq_nil)

/-! ### Batching lemmas -/

theorem chunksFromFuel_congr (K : ℕ) (f1 f2 start : ℕ) (l : List Page)
    (h1 : l.length ≤ f1) (h2 : l.length ≤ f2) :
    chunksFromFuel K f1 start l = chunksFromFuel K f2 start l := by
  induction f1 generalizing f2 start l with
  | zero =>
      cases l with
      | nil =>
          cases f2 with
          | zero => rfl
          | succ g => rfl
      | cons p rest => simp at h1
  | succ f ih =>
      cases l with
      | nil =>
          cases f2 with
          | zero => rfl
          | succ g => rfl
      | cons p rest =>
          cases f2 with
          | zero => simp at h2
          | succ g =>
              show (start, p :: rest.take (K - 1)) ::
                    chunksFromFuel K f (start + K) (rest.drop (K - 1))
                  = (start, p :: rest.take (K - 1)) ::
                    chunksFromFuel K g (start + K) (rest.drop (K - 1))
              congr 1
              apply ih
              · rw [List.length_drop]
                simp only [List.length_cons] at h1
                omega
              · rw [List.length_drop]
                simp only [List.length_cons] at h2
                omega

theorem chunksFrom_cons (K start : ℕ) (p : Page) (rest : List Page) :
    chunksFrom K start (p :: rest) =
      (start, p :: rest.take (K - 1)) ::
        chunksFrom K (start + K) (rest.drop (K - 1)) := by
  have h1 : chunksFrom K start (p :: rest)
      = (start, p :: rest.take (K - 1)) ::
        chunksFromFuel K rest.length (start + K) (rest.drop (K - 1)) := rfl
  rw [h1, chunksFrom]
  congr 1
  apply chunksFromFuel_congr
  · rw [List.length_drop]
    omega
  · exact le_refl _

/-- Pass-1 batching is transparent: folding `updateFontFreq` chunk by chunk
is folding it over the whole document. -/
theorem pass1_chunks_eq (K : ℕ) (fuel start : ℕ) (doc : List Page)
    (hf : doc.length ≤ fuel) (f : List (ℤ × ℕ)) :
    (chunksFromFuel K fuel start doc).foldl
        (fun g b => b.2.foldl updateFontFreq g) f
      = doc.foldl updateFontFreq f := by
  induction fuel generalizing start doc f with
  | zero =>
      cases doc with
      | nil => rfl
      | cons p rest => simp at hf
  | succ g ih =>
      cases doc with
      | nil => rfl
      | cons p rest =>
          show (chunksFromFuel K g (start + K) (rest.drop (K - 1))).foldl
              (fun g b => b.2.foldl updateFontFreq g)
              ((p :: rest.take (K - 1)).foldl updateFontFreq f)
            = (p :: rest).foldl updateFontFreq f
          rw [ih (start + K) (rest.drop (K - 1))
            (by rw [List.length_drop]; simp only [List.length_cons] at hf; omega)]
          rw [List.foldl_cons, List.foldl_cons, ← List.foldl_append,
            List.take_append_drop]

theorem pass1_eq_single (K : ℕ) (doc : List Page) :
    pass1 K doc = doc.foldl updateFontFreq [] := by
  rw [pass1, chunksFrom]
  exact pass1_chunks_eq K doc.length 1 doc (le_refl _) []

/-- Sequential per-page processing with explicit absolute page numbers. -/
def processPagesFrom (title sec sub : ℚ) (start : ℕ) (pages : List Page)
    (st : AggState) : AggState :=
  match pages with
  | [] => st
  | p :: rest =>
      processPagesFrom title sec sub (start + 1) rest
        (processPage title sec sub start st p)

theorem enumFrom_process (title sec sub : ℚ) (start n : ℕ) (pages : List Page)
    (st : AggState) :
    (List.enumFrom n pages).foldl
        (fun s2 ip => processPage title sec sub (start + ip.1) s2 ip.2) st
      = processPagesFrom title sec sub (start + n) pages st := by
  induction pages generalizing n st with
  | nil => rfl
  | cons p rest ih =>
      rw [List.enumFrom_cons, List.foldl_cons, processPagesFrom]
      rw [ih (n + 1)]
      have : start + n + 1 = start + (n + 1) := by omega
      rw [this]

theorem processBatch_eq_from (title sec sub : ℚ) (start : ℕ) (pages : List Page)
    (st : AggState) :
    processBatch title sec sub start pages st
      = processPagesFrom title sec sub start pages st := by
  rw [processBatch]
  cases pages with
  | nil => rfl
  | cons p rest =>
      rw [List.enum_cons, List.foldl_cons]
      simp only [Nat.add_zero]
      rw [enumFrom_process title sec sub start 1 rest]
      rw [processPagesFrom]

theorem processPagesFrom_append (title sec sub : ℚ) (start : ℕ)
    (c rest : List Page) (st : AggState) :
    processPagesFrom title sec sub start (c ++ rest) st
      = processPagesFrom title sec sub (start + c.length) rest
        (processPagesFrom title sec sub start c st) := by
  induction c generalizing start st with
  | nil =>
      simp only [List.nil_append, List.length_nil, Nat.add_zero]
      rfl
  | cons p t ih =>
      rw [List.cons_append, processPagesFrom, processPagesFrom, ih]
      have : start + 1 + t.length = start + (p :: t).length := by
        simp only [List.length_cons]
        omega
      rw [this]

/-- Pass-2 batching is transparent (needs `1 ≤ K` so that full chunks have
length `K`, matching the `start += K` stride). -/
theorem pass2_chunks_eq (title sec sub : ℚ) (K : ℕ) (hK : 1 ≤ K)
    (fuel start : ℕ) (doc : List Page) (hf : doc.length ≤ fuel) (st : AggState) :
    (chunksFromFuel K fuel start doc).foldl
        (fun s2 b => processBatch title sec sub b.1 b.2 s2) st
      = processPagesFrom title sec sub start doc st := by
  induction fuel generalizing start doc st with
  | zero =>
      cases doc with
      | nil => rfl
      | cons p rest => simp at hf
  | succ g ih =>
      cases doc with
      | nil => rfl
      | cons p rest =>
          show (chunksFromFuel K g (start + K) (rest.drop (K - 1))).foldl
              (fun s2 b => processBatch title sec sub b.1 b.2 s2)
              (processBatch title sec sub start (p :: rest.take (K - 1)) st)
            = processPagesFrom title sec sub start (p :: rest) st
          rw [ih (start + K) (rest.drop (K - 1))
            (by rw [List.length_drop]; simp only [List.length_cons] at hf; omega)]
          rw [processBatch_eq_from]
          by_cases hlen : rest.length ≤ K - 1
          · rw [List.drop_eq_nil_of_le (by omega)]
            rw [List.take_of_length_le hlen]
            rfl
          · have hchunk : (p :: rest.take (K - 1)).length = K := by
              simp only [List.length_cons, List.length_take]
              omega
            have happ := processPagesFrom_append title sec sub start
              (p :: rest.take (K - 1)) (rest.drop (K - 1)) st
            rw [List.cons_append, List.take_append_drop, hchunk] at happ
            exact happ.symm

/-- Batching transparency, shared form. -/
theorem extractK_eq_single (K : ℕ) (hK : 1 ≤ K) (doc : List Page) :
    ExtractStructuredTextK K doc = extractSingleBatch doc := by
  rw [ExtractStructuredTextK, extractSingleBatch]
  by_cases h : doc.length = 0
  · rw [if_pos h, if_pos h]
  · rw [if_neg h, if_neg h, pass1_eq_single]
    cases thresholdsFromFreq (doc.foldl updateFontFreq []) with
    | error e => rfl
    | ok t3 =>
        obtain ⟨t, s, u⟩ := t3
        simp only
        congr 1
        rw [runPass2, chunksFrom,
          pass2_chunks_eq t s u K hK doc.length 1 doc (le_refl _),
          processBatch_eq_from]

/-- C8: for every document and every batch size K ≥ 1, the StructuredBlock
sequence produced by processing the document's pages in batches of size K is
identical (same blocks, same order, same hierarchy strings, texts, and page
numbers) to processing all pages in a single batch; batching does not alter
the output. -/
theorem C8_batch_transparency (doc : List Page) (K : ℕ) (hK : 1 ≤ K) :
    ExtractStructuredTextK K doc = extractSingleBatch doc :=
  extractK_eq_single K hK doc

theorem C8_batch_transparency_witness :
    ExtractStructuredTextK 2 staleDoc = extractSingleBatch staleDoc :=
  C8_batch_transparency staleDoc 2 (by decide)

/-- C9: for every document whose page count resolves to zero,
ExtractStructuredText returns an error with a distinct message (different
from the no-text error) and never an ok result. -/
theorem C9_empty_document (doc : List Page) (h : doc.length = 0) :
    ExtractStructuredText doc = Except.error emptyDocMsg ∧
      emptyDocMsg ≠ noTextMsg ∧
      ∀ bs, ExtractStructuredText doc ≠ Except.ok bs := by
  have h1 : ExtractStructuredText doc = Except.error emptyDocMsg := by
    rw [ExtractStructuredText, ExtractStructuredTextK, if_pos h]
  refine ⟨h1, by decide, ?_⟩
  intro bs hbs
  rw [h1] at hbs
  exact Except.noConfusion hbs

theorem C9_empty_document_witness :
    ExtractStructuredText [] = Except.error emptyDocMsg :=
  (C9_empty_document [] (by decide)).1

/-- C4: for every histogram (with the distinct keys a Go map guarantees):
empty ⟷ the "no text detected" error; otherwise the selector returns the
one/two/three largest distinct keys in strictly descending order, each equal
to an actual key of the histogram, padded with the sentinel 0. -/
theorem C4_threshold_selection (freq : List (ℤ × ℕ))
    (hnd : (freq.map Prod.fst).Nodup) :
    (thresholdsFromFreq freq = Except.error noTextMsg ↔ freq = []) ∧
    (∀ t s u : ℚ, thresholdsFromFreq freq = Except.ok (t, s, u) →
      ((∃ k ∈ freq.map Prod.fst, (k : ℚ) = t) ∧
        (∀ j ∈ freq.map Prod.fst, (j : ℚ) ≤ t)) ∧
      (s ≠ 0 → (∃ k ∈ freq.map Prod.fst, (k : ℚ) = s) ∧ s < t ∧
        (∀ j ∈ freq.map Prod.fst, (j : ℚ) = t ∨ (j : ℚ) ≤ s)) ∧
      (u ≠ 0 → (∃ k ∈ freq.map Prod.fst, (k : ℚ) = u) ∧ u < s ∧
        (∀ j ∈ freq.map Prod.fst, (j : ℚ) = t ∨ (j : ℚ) = s ∨ (j : ℚ) ≤ u)) ∧
      ((freq.map Prod.fst).length = 1 → s = 0 ∧ u = 0) ∧
      ((freq.map Prod.fst).length = 2 → u = 0)) := by
  constructor
  · constructor
    · intro he
      by_contra hne
      have hkeys : freq.map Prod.fst ≠ [] := by
        cases freq with
        | nil => exact absurd rfl hne
        | cons p t => exact List.cons_ne_nil _ _
      have hs := sortDesc_ne_nil _ hkeys
      rw [thresholdsFromFreq, if_neg hne] at he
      cases hsd : sortDesc (freq.map Prod.fst) with
      | nil => exact hs hsd
      | cons a rest =>
          cases rest with
          | nil =>
              rw [hsd] at he
              exact Except.noConfusion he
          | cons b rest2 =>
              cases rest2 with
              | nil =>
                  rw [hsd] at he
                  exact Except.noConfusion he
              | cons c rest3 =>
                  rw [hsd] at he
                  exact Except.noConfusion he
    · intro he
      rw [thresholdsFromFreq, if_pos he]
  · intro t s u hok
    by_cases hne : freq = []
    · rw [thresholdsFromFreq, if_pos hne] at hok
      exact Except.noConfusion hok
    · rw [thresholdsFromFreq, if_neg hne] at hok
      have hperm := sortDesc_perm (freq.map Prod.fst)
      have hgt := sortDesc_pairwise_gt (freq.map Prod.fst) hnd
      have hmem : ∀ j, j ∈ freq.map Prod.fst ↔ j ∈ sortDesc (freq.map Prod.fst) :=
        fun j => (sortDesc_mem (freq.map Prod.fst) j).symm
      have hlen : (sortDesc (freq.map Prod.fst)).length = (freq.map Prod.fst).length :=
        hperm.length_eq
      cases hsd : sortDesc (freq.map Prod.fst) with
      | nil =>
          rw [hsd] at hok
          exact Except.noConfusion hok
      | cons a rest =>
          cases rest with
          | nil =>
              rw [hsd] at hok
              simp only [Except.ok.injEq, Prod.mk.injEq] at hok
              obtain ⟨h1, h2, h3⟩ := hok
              subst h1
              subst h2
              subst h3
              refine ⟨⟨⟨a, ?_, rfl⟩, ?_⟩, ?_, ?_, ?_, ?_⟩
              · rw [hmem a, hsd]
                exact List.mem_singleton.mpr rfl
              · intro j hj
                rw [hmem j, hsd, List.mem_singleton] at hj
                rw [hj]
              · intro hs0
                exact absurd rfl hs0
              · intro hu0
                exact absurd rfl hu0
              · intro _
                exact ⟨rfl, rfl⟩
              · intro _
                rfl
          | cons b rest2 =>
              cases rest2 with
              | nil =>
                  rw [hsd] at hok
                  simp only [Except.ok.injEq, Prod.mk.injEq] at hok
                  obtain ⟨h1, h2, h3⟩ := hok
                  subst h1
                  subst h2
                  subst h3
                  rw [hsd] at hgt
                  have hab : b < a := by
                    have := (List.pairwise_cons.mp hgt).1
                    exact this b (List.mem_singleton.mpr rfl)
                  rw [hsd] at hlen
                  refine ⟨⟨⟨a, ?_, rfl⟩, ?_⟩, ?_, ?_, ?_, ?_⟩
                  · rw [hmem a, hsd]
                    exact List.mem_cons_self a _
                  · intro j hj
                    rw [hmem j, hsd] at hj
                    rcases List.mem_cons.mp hj with hj1 | hj1
                    · rw [hj1]
                    · rw [List.mem_singleton.mp hj1]
                      exact_mod_cast le_of_lt hab
                  · intro _
                    refine ⟨⟨b, ?_, rfl⟩, ?_, ?_⟩
                    · rw [hmem b, hsd]
                      exact List.mem_cons.mpr (Or.inr (List.mem_singleton.mpr rfl))
                    · exact_mod_cast hab
                    · intro j hj
                      rw [hmem j, hsd] at hj
                      rcases List.mem_cons.mp hj with hj1 | hj1
                      · exact Or.inl (by rw [hj1])
                      · exact Or.inr (by rw [List.mem_singleton.mp hj1])
                  · intro hu0
                    exact absurd rfl hu0
                  · intro hl1
                    rw [← hlen] at hl1
                    simp at hl1
                  · intro _
                    rfl
              | cons c rest3 =>
                  rw [hsd] at hok
                  simp only [Except.ok.injEq, Prod.mk.injEq] at hok
                  obtain ⟨h1, h2, h3⟩ := hok
                  subst h1
                  subst h2
                  subst h3
                  rw [hsd] at hgt
                  have hpc := List.pairwise_cons.mp hgt
                  have hpc2 := List.pairwise_cons.mp hpc.2
                  have hab : b < a := hpc.1 b (List.mem_cons_self b _)
                  have hac : c < a := hpc.1 c
                    (List.mem_cons.mpr (Or.inr (List.mem_cons_self c _)))
                  have hbc : c < b := hpc2.1 c (List.mem_cons_self c _)
                  have hrest : ∀ j ∈ rest3, j < c := fun j hj =>
                    (List.pairwise_cons.mp hpc2.2).1 j hj
                  rw [hsd] at hlen
                  refine ⟨⟨⟨a, ?_, rfl⟩, ?_⟩, ?_, ?_, ?_, ?_⟩
                  · rw [hmem a, hsd]
                    exact List.mem_cons_self a _
                  · intro j hj
                    rw [hmem j, hsd] at hj
                    rcases List.mem_cons.mp hj with hj1 | hj1
                    · rw [hj1]
                    · rcases List.mem_cons.mp hj1 with hj2 | hj2
                      · rw [hj2]
                        exact_mod_cast le_of_lt hab
                      · rcases List.mem_cons.mp hj2 with hj3 | hj3
                        · rw [hj3]
                          exact_mod_cast le_of_lt hac
                        · have := lt_trans (hrest j hj3) hac
                          exact_mod_cast le_of_lt this
                  · intro _
                    refine ⟨⟨b, ?_, rfl⟩, by exact_mod_cast hab, ?_⟩
                    · rw [hmem b, hsd]
                      exact List.mem_cons.mpr (Or.inr (List.mem_cons_self b _))
                    · intro j hj
                      rw [hmem j, hsd] at hj
                      rcases List.mem_cons.mp hj with hj1 | hj1
                      · exact Or.inl (by rw [hj1])
                      · rcases List.mem_cons.mp hj1 with hj2 | hj2
                        · exact Or.inr (by rw [hj2])
                        · rcases List.mem_cons.mp hj2 with hj3 | hj3
                          · rw [hj3]
                            exact Or.inr (by exact_mod_cast le_of_lt hbc)
                          · have := lt_trans (hrest j hj3) hbc
                            exact Or.inr (by exact_mod_cast le_of_lt this)
                  · intro _
                    refine ⟨⟨c, ?_, rfl⟩, by exact_mod_cast hbc, ?_⟩
                    · rw [hmem c, hsd]
                      exact List.mem_cons.mpr (Or.inr
                        (List.mem_cons.mpr (Or.inr (List.mem_cons_self c _))))
                    · intro j hj
                      rw [hmem j, hsd] at hj
                      rcases List.mem_cons.mp hj with hj1 | hj1
                      · exact Or.inl (by rw [hj1])
                      · rcases List.mem_cons.mp hj1 with hj2 | hj2
                        · exact Or.inr (Or.inl (by rw [hj2]))
                        · rcases List.mem_cons.mp hj2 with hj3 | hj3
                          · rw [hj3]
                            exact Or.inr (Or.inr (le_refl _))
                          · exact Or.inr (Or.inr
                              (by exact_mod_cast le_of_lt (hrest j hj3)))
                  · intro hl1
                    rw [← hlen] at hl1
                    simp at hl1
                  · intro hl2
                    rw [← hlen] at hl2
                    simp at hl2

theorem C4_threshold_selection_witness :
    ∃ k ∈ ([(12, 1), (10, 2), (8, 1)] : List (ℤ × ℕ)).map Prod.fst,
      (k : ℚ) = 12 :=
  (((C4_threshold_selection [(12, 1), (10, 2), (8, 1)] (by decide)).2
    12 10 8 (by decide)).1).1

/-- C5: the pass-1 histogram builder increments, for every line of every
`"text"` block, exactly the bucket `int(round(size + 0.5))`; other block
types contribute nothing (not even a zero-count entry), and an empty page
sequence leaves the histogram unchanged. -/
theorem C5_histogram_update (freq : List (ℤ × ℕ)) (page : Page) :
    (∀ k, lookup (updateFontFreq freq page) k
        = lookup freq k + (textLineBuckets page).count k) ∧
    (∀ k, k ∉ keysOf freq → (textLineBuckets page).count k = 0 →
      k ∉ keysOf (updateFontFreq freq page)) ∧
    ([] : List Page).foldl updateFontFreq freq = freq := by
  refine ⟨?_, ?_, rfl⟩
  · intro k
    rw [updateFontFreq_eq_incrAll, lookup_incrAll]
  · intro k hk hcnt hmem
    rw [updateFontFreq_eq_incrAll] at hmem
    rcases (mem_keysOf_incrAll _ _ _).mp hmem with h | h
    · exact hk h
    · rw [List.count_eq_zero] at hcnt
      exact hcnt h

theorem C5_histogram_update_witness :
    lookup (updateFontFreq [(21, 1)] { blocks := [txtBlock "Hi" 20, imgBlock] }) 21
      = lookup [(21, 1)] 21
        + (textLineBuckets { blocks := [txtBlock "Hi" 20, imgBlock] }).count 21 :=
  (C5_histogram_update [(21, 1)] { blocks := [txtBlock "Hi" 20, imgBlock] }).1 21

/-- Strict descent of the populated thresholds (shared helper). -/
theorem thresholds_strict (freq : List (ℤ × ℕ))
    (hnd : (freq.map Prod.fst).Nodup) (t s u : ℚ)
    (hok : thresholdsFromFreq freq = Except.ok (t, s, u)) :
    (s ≠ 0 → s < t) ∧ (u ≠ 0 → u < s) := by
  by_cases hne : freq = []
  · rw [thresholdsFromFreq, if_pos hne] at hok
    exact Except.noConfusion hok
  · rw [thresholdsFromFreq, if_neg hne] at hok
    have hgt := sortDesc_pairwise_gt (freq.map Prod.fst) hnd
    cases hsd : sortDesc (freq.map Prod.fst) with
    | nil =>
        rw [hsd] at hok
        exact Except.noConfusion hok
    | cons a rest =>
        cases rest with
        | nil =>
            rw [hsd] at hok
            simp only [Except.ok.injEq, Prod.mk.injEq] at hok
            obtain ⟨h1, h2, h3⟩ := hok
            subst h1
            subst h2
            subst h3
            exact ⟨fun hs0 => absurd rfl hs0, fun hu0 => absurd rfl hu0⟩
        | cons b rest2 =>
            cases rest2 with
            | nil =>
                rw [hsd] at hok
                simp only [Except.ok.injEq, Prod.mk.injEq] at hok
                obtain ⟨h1, h2, h3⟩ := hok
                subst h1
                subst h2
                subst h3
                rw [hsd] at hgt
                have hab : b < a :=
                  (List.pairwise_cons.mp hgt).1 b (List.mem_singleton.mpr rfl)
                exact ⟨fun _ => by exact_mod_cast hab,
                  fun hu0 => absurd rfl hu0⟩
            | cons c rest3 =>
                rw [hsd] at hok
                simp only [Except.ok.injEq, Prod.mk.injEq] at hok
                obtain ⟨h1, h2, h3⟩ := hok
                subst h1
                subst h2
                subst h3
                rw [hsd] at hgt
                have hpc := List.pairwise_cons.mp hgt
                have hpc2 := List.pairwise_cons.mp hpc.2
                have hab : b < a := hpc.1 b (List.mem_cons_self b _)
                have hbc : c < b := hpc2.1 c (List.mem_cons_self c _)
                exact ⟨fun _ => by exact_mod_cast hab,
                  fun _ => by exact_mod_cast hbc⟩

theorem blockMaxSize_nonneg (blk : Block) : 0 ≤ blockMaxSize blk := by
  rw [blockMaxSize]
  have hgen : ∀ (lines : List Line) (m : ℚ),
      m ≤ lines.foldl (fun m2 ln => if m2 < ln.font.size then ln.font.size else m2) m := by
    intro lines
    induction lines with
    | nil => intro m; exact le_refl m
    | cons ln rest ih =>
        intro m
        rw [List.foldl_cons]
        by_cases h : m < ln.font.size
        · rw [if_pos h]
          exact le_trans (le_of_lt h) (ih _)
        · rw [if_neg h]
          exact ih m
  exact hgen blk.lines 0

/-- C6: with `classify`'s first-match-wins descending comparison, each block
whose representative (max-line) size exactly equals one of the selected
non-zero thresholds classifies as a heading at exactly that level, never a
lower one. -/
theorem C6_classification_consistency (freq : List (ℤ × ℕ))
    (hnd : (freq.map Prod.fst).Nodup) (t s u : ℚ)
    (hok : thresholdsFromFreq freq = Except.ok (t, s, u)) (blk : Block) :
    (blockMaxSize blk = t ∧ t ≠ 0 →
      classify t s u (blockMaxSize blk) = "Title") ∧
    (blockMaxSize blk = s ∧ s ≠ 0 →
      classify t s u (blockMaxSize blk) = "Section") ∧
    (blockMaxSize blk = u ∧ u ≠ 0 →
      classify t s u (blockMaxSize blk) = "Subsection") := by
  have hr0 := blockMaxSize_nonneg blk
  have hstrict := thresholds_strict freq hnd t s u hok
  refine ⟨?_, ?_, ?_⟩
  · rintro ⟨heq, hne⟩
    have ht0 : 0 < t := lt_of_le_of_ne (heq ▸ hr0) (Ne.symm hne)
    rw [classify, if_pos ⟨ht0, le_of_eq heq.symm⟩]
  · rintro ⟨heq, hne⟩
    have hs0 : 0 < s := lt_of_le_of_ne (heq ▸ hr0) (Ne.symm hne)
    have hst : s < t := hstrict.1 hne
    rw [classify, if_neg ?_, if_pos ⟨hs0, le_of_eq heq.symm⟩]
    rintro ⟨_, hle⟩
    rw [heq] at hle
    exact absurd hst (not_lt_of_le hle)
  · rintro ⟨heq, hne⟩
    have hu0 : 0 < u := lt_of_le_of_ne (heq ▸ hr0) (Ne.symm hne)
    have hus : u < s := hstrict.2 hne
    have hs0 : 0 < s := lt_trans hu0 hus
    have hst : s < t := hstrict.1 (ne_of_gt hs0)
    rw [classify, if_neg ?_, if_neg ?_, if_pos ⟨hu0, le_of_eq heq.symm⟩]
    · rintro ⟨_, hle⟩
      rw [heq] at hle
      exact absurd hus (not_lt_of_le hle)
    · rintro ⟨_, hle⟩
      rw [heq] at hle
      exact absurd (lt_trans hus hst) (not_lt_of_le hle)

theorem C6_classification_consistency_witness :
    classify 21 11 0 (blockMaxSize (txtBlock "Head" 21)) = "Title" :=
  (C6_classification_consistency [(21, 1), (11, 2)] (by decide) 21 11 0
    (by decide) (txtBlock "Head" 21)).1 ⟨by decide, by decide⟩

/-! ### Branch behaviour of one pass-2 step -/

theorem empty_append_str (s : String) : "" ++ s = s := String.ext rfl

theorem flushState_of_empty (st : AggState) (h : st.aggBuf = "") :
    flushState st = st := by
  rw [flushState, if_pos h]

theorem flushState_of_ne (st : AggState) (h : st.aggBuf ≠ "") :
    flushState st =
      { st with
        blocks := st.blocks ++
          [{ headerHierarchy := st.aggHierarchy,
             text := trimSpace st.aggBuf,
             pageNumber := st.aggPage }],
        aggBuf := "" } := by
  rw [flushState, if_neg h]

theorem processBlock_nonText (title sec sub : ℚ) (n : ℕ) (st : AggState)
    (blk : Block) (h : blk.type ≠ "text") :
    processBlock title sec sub n st blk = st := by
  rw [processBlock, if_pos h]

theorem processBlock_emptyText (title sec sub : ℚ) (n : ℕ) (st : AggState)
    (blk : Block) (h1 : blk.type = "text") (h2 : blockText blk = "") :
    processBlock title sec sub n st blk = st := by
  rw [processBlock, if_neg (by simp [h1])]
  simp only [h2, if_pos]

theorem processBlock_title (title sec sub : ℚ) (n : ℕ) (st : AggState)
    (blk : Block) (h1 : blk.type = "text") (h2 : blockText blk ≠ "")
    (h3 : classify title sec sub (blockMaxSize blk) = "Title") :
    processBlock title sec sub n st blk =
      { (flushState st) with
          curTitle := blockText blk
          curSection := ""
          curSubsection := "" } := by
  rw [processBlock, if_neg (by simp [h1])]
  simp [h2, h3]

theorem processBlock_sec (title sec sub : ℚ) (n : ℕ) (st : AggState)
    (blk : Block) (h1 : blk.type = "text") (h2 : blockText blk ≠ "")
    (h3 : classify title sec sub (blockMaxSize blk) = "Section") :
    processBlock title sec sub n st blk =
      { (flushState st) with curSection := blockText blk, curSubsection := "" } := by
  rw [processBlock, if_neg (by simp [h1])]
  simp only [h2, if_neg, h3]
  simp

theorem processBlock_sub (title sec sub : ℚ) (n : ℕ) (st : AggState)
    (blk : Block) (h1 : blk.type = "text") (h2 : blockText blk ≠ "")
    (h3 : classify title sec sub (blockMaxSize blk) = "Subsection") :
    processBlock title sec sub n st blk =
      { (flushState st) with curSubsection := blockText blk } := by
  rw [processBlock, if_neg (by simp [h1])]
  simp only [h2, if_neg, h3]
  simp

theorem processBlock_body_skip (title sec sub : ℚ) (n : ℕ) (st : AggState)
    (blk : Block) (h1 : blk.type = "text") (h2 : blockText blk ≠ "")
    (h3 : classify title sec sub (blockMaxSize blk) = "")
    (h4 : buildHierarchy st = "") :
    processBlock title sec sub n st blk = st := by
  rw [processBlock, if_neg (by simp [h1])]
  simp only [h2, if_neg, h3]
  simp [h4]

theorem processBlock_body_merge (title sec sub : ℚ) (n : ℕ) (st : AggState)
    (blk : Block) (h1 : blk.type = "text") (h2 : blockText blk ≠ "")
    (h3 : classify title sec sub (blockMaxSize blk) = "")
    (h4 : buildHierarchy st = st.aggHierarchy) (h5 : st.aggHierarchy ≠ "")
    (h6 : st.aggBuf ≠ "") :
    processBlock title sec sub n st blk =
      { st with aggBuf := st.aggBuf ++ "\n\n" ++ blockText blk } := by
  rw [processBlock, if_neg (by simp [h1])]
  simp only [h2, if_neg, h3]
  simp only [h4, h5, if_neg, ne_eq, not_true_eq_false, if_false, h6,
    not_false_eq_true, if_true]
  simp [h4, h5, h6]

theorem processBlock_body_new (title sec sub : ℚ) (n : ℕ) (st : AggState)
    (blk : Block) (h1 : blk.type = "text") (h2 : blockText blk ≠ "")
    (h3 : classify title sec sub (blockMaxSize blk) = "")
    (h4 : buildHierarchy st ≠ "")
    (h5 : buildHierarchy st ≠ st.aggHierarchy) (h6 : st.aggBuf ≠ "") :
    processBlock title sec sub n st blk =
      { st with
          blocks := st.blocks ++
            [{ headerHierarchy := st.aggHierarchy,
               text := trimSpace st.aggBuf,
               pageNumber := st.aggPage }]
          aggHierarchy := buildHierarchy st
          aggPage := n
          aggBuf := blockText blk } := by
  rw [processBlock, if_neg (by simp [h1])]
  simp only [h2, if_neg, h3]
  simp [h4, h5, flushState_of_ne st h6, empty_append_str]

theorem processBlock_body_new_empty (title sec sub : ℚ) (n : ℕ) (st : AggState)
    (blk : Block) (h1 : blk.type = "text") (h2 : blockText blk ≠ "")
    (h3 : classify title sec sub (blockMaxSize blk) = "")
    (h4 : buildHierarchy st ≠ "")
    (h5 : buildHierarchy st ≠ st.aggHierarchy) (h6 : st.aggBuf = "") :
    processBlock title sec sub n st blk =
      { st with
          aggHierarchy := buildHierarchy st
          aggPage := n
          aggBuf := blockText blk } := by
  rw [processBlock, if_neg (by simp [h1])]
  simp only [h2, if_neg, h3]
  simp [h4, h5, flushState_of_empty st h6, h6, empty_append_str]

/-- C7: two consecutive Body blocks under the identical heading path merge
into one StructuredBlock with their paragraphs separated by exactly one blank
line ("\n\n"), while any change of heading path — a heading block, or a body
block with a differing hierarchy — emits the in-progress aggregate and starts
a new StructuredBlock, regardless of the new body text's content. -/
theorem C7_aggregation_boundary (title sec sub : ℚ) (n : ℕ) (st : AggState)
    (blk : Block) (h1 : blk.type = "text") (h2 : blockText blk ≠ "") :
    (classify title sec sub (blockMaxSize blk) = "" →
      buildHierarchy st = st.aggHierarchy → st.aggHierarchy ≠ "" →
      st.aggBuf ≠ "" →
      processBlock title sec sub n st blk
        = { st with aggBuf := st.aggBuf ++ "\n\n" ++ blockText blk }) ∧
    (classify title sec sub (blockMaxSize blk) = "" →
      buildHierarchy st ≠ "" → buildHierarchy st ≠ st.aggHierarchy →
      st.aggBuf ≠ "" →
      processBlock title sec sub n st blk
        = { st with
            blocks := st.blocks ++
              [{ headerHierarchy := st.aggHierarchy,
                 text := trimSpace st.aggBuf,
                 pageNumber := st.aggPage }]
            aggHierarchy := buildHierarchy st
            aggPage := n
            aggBuf := blockText blk }) ∧
    ((classify title sec sub (blockMaxSize blk) = "Title" ∨
        classify title sec sub (blockMaxSize blk) = "Section" ∨
        classify title sec sub (blockMaxSize blk) = "Subsection") →
      st.aggBuf ≠ "" →
      (processBlock title sec sub n st blk).blocks
        = st.blocks ++
          [{ headerHierarchy := st.aggHierarchy,
             text := trimSpace st.aggBuf,
             pageNumber := st.aggPage }]) := by
  refine ⟨?_, ?_, ?_⟩
  · intro h3 h4 h5 h6
    exact processBlock_body_merge title sec sub n st blk h1 h2 h3 h4 h5 h6
  · intro h3 h4 h5 h6
    exact processBlock_body_new title sec sub n st blk h1 h2 h3 h4 h5 h6
  · intro h3 h6
    rcases h3 with hc | hc | hc
    · rw [processBlock_title title sec sub n st blk h1 h2 hc,
        flushState_of_ne st h6]
    · rw [processBlock_sec title sec sub n st blk h1 h2 hc,
        flushState_of_ne st h6]
    · rw [processBlock_sub title sec sub n st blk h1 h2 hc,
        flushState_of_ne st h6]

/-- A pass-2 state holding an in-progress aggregate under heading "Heading". -/
def mergeState : AggState :=
  { curTitle := "", curSection := "Heading", curSubsection := "",
    aggHierarchy := "Heading", aggPage := 1, aggBuf := "First body.",
    blocks := [] }

theorem C7_aggregation_boundary_witness :
    processBlock 21 11 0 3 mergeState (txtBlock "More text." 10)
      = { mergeState with
          aggBuf := mergeState.aggBuf ++ "\n\n"
            ++ blockText (txtBlock "More text." 10) } :=
  (C7_aggregation_boundary 21 11 0 3 mergeState (txtBlock "More text." 10)
    (by decide) (by decide)).1 (by decide) (by decide) (by decide) (by decide)

/-- C1 (code-bug evidence): on `staleDoc` the heading repeats, so the same
hierarchy string recurs after a flush; `flush` does not reset
`aggHierarchy`/`aggPage`, so the second emitted block keeps the stale page 1
even though its text ("Second body.") appears only on page 3 (the last of the
three pages), contradicting the documented "page of the first constituent
paragraph" semantics. -/
theorem C1_stale_page_attribution :
    ExtractStructuredText staleDoc =
      Except.ok
        [ { headerHierarchy := "Heading", text := "First body.", pageNumber := 1 },
          { headerHierarchy := "Heading", text := "Second body.", pageNumber := 1 } ] ∧
    staleDoc.length = 3 ∧
    staleDoc.drop 2 = [ { blocks := [txtBlock "Second body." 10] } ] := by
  exact ⟨by decide, by decide, by decide⟩

/-- C2 counterexample: in `singleDoc` every line shares font size 12, yet the
single text block classifies as Body (""), not "Title": the selected
threshold is the rounded bucket 13, strictly above the shared size. -/
theorem C2_single_size_counterexample :
    thresholdsFromFreq (pass1 batchSize singleDoc) = Except.ok (13, 0, 0) ∧
    classify 13 0 0 (blockMaxSize (txtBlock "Hello" 12)) = "" ∧
    ("" : String) ≠ "Title" := by
  exact ⟨by decide, by decide, by decide⟩

/-! ### Support for the single-size analysis -/

theorem blockMaxSize_le (blk : Block) (s : ℚ) (hs : 0 ≤ s)
    (h : ∀ ln ∈ blk.lines, ln.font.size ≤ s) : blockMaxSize blk ≤ s := by
  rw [blockMaxSize]
  have hgen : ∀ (lines : List Line) (m : ℚ), m ≤ s →
      (∀ ln ∈ lines, ln.font.size ≤ s) →
      lines.foldl (fun m2 ln => if m2 < ln.font.size then ln.font.size else m2) m
        ≤ s := by
    intro lines
    induction lines with
    | nil => intro m hm _; exact hm
    | cons ln rest ih =>
        intro m hm hall2
        rw [List.foldl_cons]
        by_cases hlt : m < ln.font.size
        · rw [if_pos hlt]
          exact ih _ (hall2 ln (List.mem_cons_self _ _))
            (fun l2 hl2 => hall2 l2 (List.mem_cons.mpr (Or.inr hl2)))
        · rw [if_neg hlt]
          exact ih m hm (fun l2 hl2 => hall2 l2 (List.mem_cons.mpr (Or.inr hl2)))
  exact hgen blk.lines 0 hs h

theorem classify_uniform_body (s r : ℚ) (hs : 0 ≤ s) (hr : r ≤ s) :
    classify ((bucket s : ℤ) : ℚ) 0 0 r = "" := by
  have h1 : ¬((0:ℚ) < ((bucket s : ℤ) : ℚ) ∧ ((bucket s : ℤ) : ℚ) ≤ r) := by
    rintro ⟨_, hle⟩
    have h2 := bucket_gt s hs
    linarith
  rw [classify, if_neg h1, if_neg (by simp), if_neg (by simp)]

theorem mem_textBuckets_blocks (bl : List Block) (j : ℤ) :
    j ∈ ((bl.filter (fun b => b.type = "text")).map blockBuckets).flatten ↔
      ∃ b ∈ bl, b.type = "text" ∧ ∃ ln ∈ b.lines, j = bucket ln.font.size := by
  induction bl with
  | nil => simp
  | cons b bs ih =>
      rw [List.filter_cons]
      by_cases hb : b.type = "text"
      · rw [if_pos (by simpa using hb), List.map_cons, List.flatten_cons]
        rw [List.mem_append]
        constructor
        · rintro (hj | hj)
          · rw [blockBuckets] at hj
            obtain ⟨ln, hln, rfl⟩ := List.mem_map.mp hj
            exact ⟨b, List.mem_cons_self _ _, hb, ln, hln, rfl⟩
          · obtain ⟨b2, hb2, h3⟩ := ih.mp hj
            exact ⟨b2, List.mem_cons.mpr (Or.inr hb2), h3⟩
        · rintro ⟨b2, hb2, hbt2, ln, hln, rfl⟩
          rcases List.mem_cons.mp hb2 with h2 | h2
          · subst h2
            exact Or.inl (by rw [blockBuckets]; exact List.mem_map.mpr ⟨ln, hln, rfl⟩)
          · exact Or.inr (ih.mpr ⟨b2, h2, hbt2, ln, hln, rfl⟩)
      · rw [if_neg (by simpa using hb)]
        constructor
        · intro hj
          obtain ⟨b2, hb2, h3⟩ := ih.mp hj
          exact ⟨b2, List.mem_cons.mpr (Or.inr hb2), h3⟩
        · rintro ⟨b2, hb2, hbt2, h3⟩
          rcases List.mem_cons.mp hb2 with h2 | h2
          · subst h2
            exact absurd hbt2 hb
          · exact ih.mpr ⟨b2, h2, hbt2, h3⟩

theorem mem_textLineBuckets (page : Page) (j : ℤ) :
    j ∈ textLineBuckets page ↔
      ∃ b ∈ page.blocks, b.type = "text" ∧
        ∃ ln ∈ b.lines, j = bucket ln.font.size := by
  rw [textLineBuckets]
  exact mem_textBuckets_blocks page.blocks j

theorem keysOf_foldl_sub (doc : List Page) (f : List (ℤ × ℕ)) (j : ℤ)
    (hj : j ∈ keysOf (doc.foldl updateFontFreq f)) :
    j ∈ keysOf f ∨ ∃ p ∈ doc, j ∈ textLineBuckets p := by
  induction doc generalizing f with
  | nil => exact Or.inl hj
  | cons p rest ih =>
      rw [List.foldl_cons] at hj
      rcases ih _ hj with h | h
      · rw [updateFontFreq_eq_incrAll] at h
        rcases (mem_keysOf_incrAll _ _ _).mp h with h2 | h2
        · exact Or.inl h2
        · exact Or.inr ⟨p, List.mem_cons_self _ _, h2⟩
      · obtain ⟨q, hq, hjq⟩ := h
        exact Or.inr ⟨q, List.mem_cons.mpr (Or.inr hq), hjq⟩

theorem keysOf_foldl_mono (doc : List Page) (f : List (ℤ × ℕ)) (j : ℤ)
    (hj : j ∈ keysOf f) : j ∈ keysOf (doc.foldl updateFontFreq f) := by
  induction doc generalizing f with
  | nil => exact hj
  | cons p rest ih =>
      rw [List.foldl_cons]
      apply ih
      rw [updateFontFreq_eq_incrAll]
      exact (mem_keysOf_incrAll _ _ _).mpr (Or.inl hj)

theorem keysOf_foldl_mem_page (doc : List Page) (f : List (ℤ × ℕ)) (p : Page)
    (hp : p ∈ doc) (j : ℤ) (hj : j ∈ textLineBuckets p) :
    j ∈ keysOf (doc.foldl updateFontFreq f) := by
  induction doc generalizing f with
  | nil => cases hp
  | cons q rest ih =>
      rw [List.foldl_cons]
      rcases List.mem_cons.mp hp with h | h
      · subst h
        apply keysOf_foldl_mono
        rw [updateFontFreq_eq_incrAll]
        exact (mem_keysOf_incrAll _ _ _).mpr (Or.inr hj)
      · exact ih _ h

theorem keysOf_foldl_nodup (doc : List Page) (f : List (ℤ × ℕ))
    (h : (keysOf f).Nodup) : (keysOf (doc.foldl updateFontFreq f)).Nodup := by
  induction doc generalizing f with
  | nil => exact h
  | cons p rest ih =>
      rw [List.foldl_cons]
      apply ih
      rw [updateFontFreq_eq_incrAll]
      exact nodup_keysOf_incrAll _ _ h

theorem eq_singleton_of_forall (l : List ℤ) (x : ℤ) (hm : x ∈ l)
    (hall : ∀ j ∈ l, j = x) (hnd : l.Nodup) : l = [x] := by
  cases l with
  | nil => cases hm
  | cons a t =>
      have ha : a = x := hall a (List.mem_cons_self a t)
      subst ha
      cases t with
      | nil => rfl
      | cons b t2 =>
          have hb : b = a := hall b (List.mem_cons.mpr
            (Or.inr (List.mem_cons_self b t2)))
          rw [List.nodup_cons] at hnd
          exact absurd (hb ▸ List.mem_cons_self b t2) hnd.1

theorem thresholds_of_singleton (freq : List (ℤ × ℕ)) (x : ℤ)
    (h : keysOf freq = [x]) :
    thresholdsFromFreq freq = Except.ok ((x : ℚ), 0, 0) := by
  have hne : freq ≠ [] := by
    intro he
    rw [he] at h
    exact List.noConfusion h
  rw [thresholdsFromFreq, if_neg hne]
  rw [show freq.map Prod.fst = [x] from h]
  rfl

theorem processBlock_uniform (s : ℚ) (hs : 0 ≤ s) (n : ℕ) (blk : Block)
    (hb : blk.type = "text" → ∀ ln ∈ blk.lines, ln.font.size = s) :
    processBlock ((bucket s : ℤ) : ℚ) 0 0 n initState blk = initState := by
  by_cases ht : blk.type = "text"
  · by_cases htx : blockText blk = ""
    · exact processBlock_emptyText _ _ _ n initState blk ht htx
    · have hcl : classify ((bucket s : ℤ) : ℚ) 0 0 (blockMaxSize blk) = "" :=
        classify_uniform_body s _ hs
          (blockMaxSize_le blk s hs (fun ln hln => le_of_eq (hb ht ln hln)))
      exact processBlock_body_skip _ _ _ n initState blk ht htx hcl (by decide)
  · exact processBlock_nonText _ _ _ n initState blk ht

theorem processPagesFrom_uniform (s : ℚ) (hs : 0 ≤ s) (doc : List Page)
    (hall : ∀ p ∈ doc, ∀ b ∈ p.blocks, b.type = "text" →
      ∀ ln ∈ b.lines, ln.font.size = s) (start : ℕ) :
    processPagesFrom ((bucket s : ℤ) : ℚ) 0 0 start doc initState = initState := by
  induction doc generalizing start with
  | nil => rfl
  | cons p rest ih =>
      show processPagesFrom ((bucket s : ℤ) : ℚ) 0 0 (start + 1) rest
        (processPage ((bucket s : ℤ) : ℚ) 0 0 start initState p) = initState
      have hpage : processPage ((bucket s : ℤ) : ℚ) 0 0 start initState p
          = initState := by
        rw [processPage]
        have hconst : ∀ (bl : List Block), (∀ b ∈ bl, b.type = "text" →
            ∀ ln ∈ b.lines, ln.font.size = s) →
            bl.foldl (processBlock ((bucket s : ℤ) : ℚ) 0 0 start) initState
              = initState := by
          intro bl
          induction bl with
          | nil => intro _; rfl
          | cons b bs ih2 =>
              intro hbl
              rw [List.foldl_cons,
                processBlock_uniform s hs start b (hbl b (List.mem_cons_self _ _))]
              exact ih2 (fun b2 hb2 => hbl b2 (List.mem_cons.mpr (Or.inr hb2)))
        exact hconst p.blocks (hall p (List.mem_cons_self _ _))
      rw [hpage]
      exact ih (fun q hq => hall q (List.mem_cons.mpr (Or.inr hq))) (start + 1)

/-- C2 amended: in a document where every text line shares one (non-negative)
font size, the selector returns `(bucket, 0, 0)` for the single rounded
bucket; every text block classifies as Body (""), since the rounded bucket
strictly exceeds the shared size; and ExtractStructuredText succeeds with an
empty block sequence (no error). -/
theorem C2_single_size_amended (doc : List Page) (s : ℚ) (hs : 0 ≤ s)
    (hne : doc ≠ [])
    (hall : ∀ p ∈ doc, ∀ b ∈ p.blocks, b.type = "text" →
      ∀ ln ∈ b.lines, ln.font.size = s)
    (hex : ∃ p ∈ doc, ∃ b ∈ p.blocks, b.type = "text" ∧ b.lines ≠ []) :
    thresholdsFromFreq (pass1 batchSize doc)
        = Except.ok (((bucket s : ℤ) : ℚ), 0, 0) ∧
    (∀ p ∈ doc, ∀ b ∈ p.blocks, b.type = "text" →
      classify ((bucket s : ℤ) : ℚ) 0 0 (blockMaxSize b) = "") ∧
    ExtractStructuredText doc = Except.ok [] := by
  have hkeys : keysOf (doc.foldl updateFontFreq []) = [bucket s] := by
    apply eq_singleton_of_forall
    · obtain ⟨p, hp, b, hb, hbt, hlines⟩ := hex
      cases hl : b.lines with
      | nil => exact absurd hl hlines
      | cons ln rest =>
          have hlm : ln ∈ b.lines := by
            rw [hl]
            exact List.mem_cons_self _ _
          have hmem : bucket ln.font.size ∈ textLineBuckets p :=
            (mem_textLineBuckets p _).mpr ⟨b, hb, hbt, ln, hlm, rfl⟩
          have hk := keysOf_foldl_mem_page doc [] p hp _ hmem
          rwa [hall p hp b hb hbt ln hlm] at hk
    · intro j hj
      rcases keysOf_foldl_sub doc [] j hj with h | ⟨p, hp, hjp⟩
      · simp [keysOf] at h
      · obtain ⟨b, hb, hbt, ln, hln, rfl⟩ := (mem_textLineBuckets p j).mp hjp
        rw [hall p hp b hb hbt ln hln]
    · exact keysOf_foldl_nodup doc [] (by simp [keysOf])
  have hth : thresholdsFromFreq (doc.foldl updateFontFreq [])
      = Except.ok (((bucket s : ℤ) : ℚ), 0, 0) :=
    thresholds_of_singleton _ _ hkeys
  refine ⟨?_, ?_, ?_⟩
  · rw [pass1_eq_single]
    exact hth
  · intro p hp b hb hbt
    exact classify_uniform_body s _ hs
      (blockMaxSize_le b s hs
        (fun ln hln => le_of_eq (hall p hp b hb hbt ln hln)))
  · rw [ExtractStructuredText, extractK_eq_single batchSize (by decide) doc,
      extractSingleBatch,
      if_neg (fun h0 => hne (List.length_eq_zero.mp h0)), hth]
    show Except.ok
        (flushState (processBatch ((bucket s : ℤ) : ℚ) 0 0 1 doc initState)).blocks
      = Except.ok []
    rw [processBatch_eq_from, processPagesFrom_uniform s hs doc hall 1]
    rfl

theorem C2_single_size_amended_witness :
    ExtractStructuredText singleDoc = Except.ok [] :=
  (C2_single_size_amended singleDoc 12 (by decide) (by decide)
    (by decide) (by decide)).2.2

/-- C3 counterexample: the document shape of the claim (three pairwise
distinct descending sizes, top size once on page 1 as "Resume Title", second
size for both headings, smaller body size) with sizes 18.9 / 18.2 / 11 —
the two heading sizes round into the same bucket 19, so the emitted
hierarchies lack the "Resume Title | " prefix required by the claim. -/
theorem C3_resume_counterexample :
    ExtractStructuredText (resumeDoc (mkRat 189 10) (mkRat 91 5) 11 "x" "y") =
      Except.ok
        [ { headerHierarchy := "Experience", text := "x", pageNumber := 1 },
          { headerHierarchy := "Education", text := "y", pageNumber := 2 } ] ∧
    ({ headerHierarchy := "Experience", text := "x", pageNumber := 1 }
        : StructuredBlock)
      ≠ { headerHierarchy := "Resume Title | Experience", text := "x",
          pageNumber := 1 } ∧
    (11 : ℚ) < mkRat 91 5 ∧ mkRat 91 5 < mkRat 189 10 := by
  exact ⟨by decide, by decide, by decide, by decide⟩

/-! ### The one-level shift produced by the +0.5 rounding bias

For non-negative sizes, `bucket s` strictly exceeds `s`, so a size never
reaches its own bucket: with three distinct buckets the top size classifies
as Section, the middle as Subsection, and the smallest as Body. -/

theorem classify_shift_top (tT tH tB : ℚ) (hB0 : 0 ≤ tB) (hBH : tB ≤ tH)
    (hHT : tH ≤ tT) (hbHT : bucket tH < bucket tT) :
    classify ((bucket tT : ℤ) : ℚ) ((bucket tH : ℤ) : ℚ) ((bucket tB : ℤ) : ℚ)
      tT = "Section" := by
  have hH0 : 0 ≤ tH := le_trans hB0 hBH
  have hT0 : 0 ≤ tT := le_trans hH0 hHT
  have hgtT := bucket_gt tT hT0
  have hleT := bucket_le tT hT0
  have hposH := bucket_pos tH hH0
  have h1 : ¬((0:ℚ) < ((bucket tT : ℤ) : ℚ) ∧ ((bucket tT : ℤ) : ℚ) ≤ tT) := by
    rintro ⟨_, hle⟩
    linarith
  have h2 : (0:ℚ) < ((bucket tH : ℤ) : ℚ) := by exact_mod_cast hposH
  have h3 : ((bucket tH : ℤ) : ℚ) ≤ tT := by
    have hc : ((bucket tH : ℤ) : ℚ) + 1 ≤ ((bucket tT : ℤ) : ℚ) := by
      exact_mod_cast hbHT
    linarith
  rw [classify, if_neg h1, if_pos ⟨h2, h3⟩]

theorem classify_shift_mid (tT tH tB : ℚ) (hB0 : 0 ≤ tB) (hBH : tB ≤ tH)
    (_hHT : tH ≤ tT) (hbBH : bucket tB < bucket tH) (hbHT : bucket tH < bucket tT) :
    classify ((bucket tT : ℤ) : ℚ) ((bucket tH : ℤ) : ℚ) ((bucket tB : ℤ) : ℚ)
      tH = "Subsection" := by
  have hH0 : 0 ≤ tH := le_trans hB0 hBH
  have hgtH := bucket_gt tH hH0
  have hleH := bucket_le tH hH0
  have hposB := bucket_pos tB hB0
  have h1 : ¬((0:ℚ) < ((bucket tT : ℤ) : ℚ) ∧ ((bucket tT : ℤ) : ℚ) ≤ tH) := by
    rintro ⟨_, hle⟩
    have hc : ((bucket tH : ℤ) : ℚ) + 1 ≤ ((bucket tT : ℤ) : ℚ) := by
      exact_mod_cast hbHT
    linarith
  have h2 : ¬((0:ℚ) < ((bucket tH : ℤ) : ℚ) ∧ ((bucket tH : ℤ) : ℚ) ≤ tH) := by
    rintro ⟨_, hle⟩
    linarith
  have h3 : (0:ℚ) < ((bucket tB : ℤ) : ℚ) := by exact_mod_cast hposB
  have h4 : ((bucket tB : ℤ) : ℚ) ≤ tH := by
    have hc : ((bucket tB : ℤ) : ℚ) + 1 ≤ ((bucket tH : ℤ) : ℚ) := by
      exact_mod_cast hbBH
    linarith
  rw [classify, if_neg h1, if_neg h2, if_pos ⟨h3, h4⟩]

theorem classify_shift_low (tT tH tB : ℚ) (hB0 : 0 ≤ tB) (hBH : tB ≤ tH)
    (_hHT : tH ≤ tT) (hbBH : bucket tB < bucket tH) (hbHT : bucket tH < bucket tT) :
    classify ((bucket tT : ℤ) : ℚ) ((bucket tH : ℤ) : ℚ) ((bucket tB : ℤ) : ℚ)
      tB = "" := by
  have hH0 : 0 ≤ tH := le_trans hB0 hBH
  have hgtB := bucket_gt tB hB0
  have h1 : ¬((0:ℚ) < ((bucket tT : ℤ) : ℚ) ∧ ((bucket tT : ℤ) : ℚ) ≤ tB) := by
    rintro ⟨_, hle⟩
    have hc1 : ((bucket tB : ℤ) : ℚ) + 1 ≤ ((bucket tH : ℤ) : ℚ) := by
      exact_mod_cast hbBH
    have hc2 : ((bucket tH : ℤ) : ℚ) + 1 ≤ ((bucket tT : ℤ) : ℚ) := by
      exact_mod_cast hbHT
    linarith
  have h2 : ¬((0:ℚ) < ((bucket tH : ℤ) : ℚ) ∧ ((bucket tH : ℤ) : ℚ) ≤ tB) := by
    rintro ⟨_, hle⟩
    have hc1 : ((bucket tB : ℤ) : ℚ) + 1 ≤ ((bucket tH : ℤ) : ℚ) := by
      exact_mod_cast hbBH
    linarith
  have h3 : ¬((0:ℚ) < ((bucket tB : ℤ) : ℚ) ∧ ((bucket tB : ℤ) : ℚ) ≤ tB) := by
    rintro ⟨_, hle⟩
    linarith
  rw [classify, if_neg h1, if_neg h2, if_neg h3]

theorem insertDesc_of_le (x y : ℤ) (t : List ℤ) (h : y ≤ x) :
    insertDesc x (y :: t) = x :: y :: t := by
  simp only [insertDesc, if_pos h]

theorem processPagesFrom_cons (title sec sub : ℚ) (start : ℕ) (p : Page)
    (rest : List Page) (st : AggState) :
    processPagesFrom title sec sub start (p :: rest) st
      = processPagesFrom title sec sub (start + 1) rest
        (processPage title sec sub start st p) := rfl

theorem processPagesFrom_nil (title sec sub : ℚ) (start : ℕ) (st : AggState) :
    processPagesFrom title sec sub start [] st = st := rfl

/-! Intermediate pass-2 states of the resume scenario. -/

def stHead1 : AggState :=
  { curTitle := "", curSection := "Resume Title", curSubsection := "",
    aggHierarchy := "", aggPage := 0, aggBuf := "", blocks := [] }

def stHead2 : AggState :=
  { curTitle := "", curSection := "Resume Title", curSubsection := "Experience",
    aggHierarchy := "", aggPage := 0, aggBuf := "", blocks := [] }

def stBody1 (b1 : String) : AggState :=
  { curTitle := "", curSection := "Resume Title", curSubsection := "Experience",
    aggHierarchy := "Resume Title | Experience", aggPage := 1,
    aggBuf := trimSpace b1, blocks := [] }

def stEdu (b1 : String) : AggState :=
  { curTitle := "", curSection := "Resume Title", curSubsection := "Education",
    aggHierarchy := "Resume Title | Experience", aggPage := 1, aggBuf := "",
    blocks := [ { headerHierarchy := "Resume Title | Experience",
                  text := trimSpace b1, pageNumber := 1 } ] }

def stBody2 (b1 b2 : String) : AggState :=
  { curTitle := "", curSection := "Resume Title", curSubsection := "Education",
    aggHierarchy := "Resume Title | Education", aggPage := 2,
    aggBuf := trimSpace b2,
    blocks := [ { headerHierarchy := "Resume Title | Experience",
                  text := trimSpace b1, pageNumber := 1 } ] }

/-- Symbolic pass-2 run over the resume family: with the top size classifying
as Section, the heading size as Subsection and the body size as Body, the
final state carries the two aggregates under "Resume Title | …" paths. -/
theorem resume_pass2 (title sec sub : ℚ) (tT tH tB : ℚ) (b1 b2 : String)
    (hclT : classify title sec sub tT = "Section")
    (hclH : classify title sec sub tH = "Subsection")
    (hclB : classify title sec sub tB = "")
    (hb1 : trimSpace b1 ≠ "") (hb2 : trimSpace b2 ≠ "")
    (hT0 : 0 ≤ tT) (hH0 : 0 ≤ tH) (hB0 : 0 ≤ tB) :
    processPagesFrom title sec sub 1 (resumeDoc tT tH tB b1 b2) initState
      = stBody2 b1 b2 := by
  have hbt1 : blockText (txtBlock "Resume Title" tT) = "Resume Title" := by
    rw [blockText_single]
    decide
  have hbt2 : blockText (txtBlock "Experience" tH) = "Experience" := by
    rw [blockText_single]
    decide
  have hbt3 : blockText (txtBlock b1 tB) = trimSpace b1 := blockText_single b1 tB
  have hbt4 : blockText (txtBlock "Education" tH) = "Education" := by
    rw [blockText_single]
    decide
  have hbt5 : blockText (txtBlock b2 tB) = trimSpace b2 := blockText_single b2 tB
  have hms1 : blockMaxSize (txtBlock "Resume Title" tT) = tT :=
    blockMaxSize_single _ _ hT0
  have hms2 : blockMaxSize (txtBlock "Experience" tH) = tH :=
    blockMaxSize_single _ _ hH0
  have hms3 : blockMaxSize (txtBlock b1 tB) = tB := blockMaxSize_single _ _ hB0
  have hms4 : blockMaxSize (txtBlock "Education" tH) = tH :=
    blockMaxSize_single _ _ hH0
  have hms5 : blockMaxSize (txtBlock b2 tB) = tB := blockMaxSize_single _ _ hB0
  have e1 : processBlock title sec sub 1 initState (txtBlock "Resume Title" tT)
      = stHead1 := by
    rw [processBlock_sec title sec sub 1 initState _ rfl
      (by rw [hbt1]; decide) (by rw [hms1]; exact hclT)]
    rw [flushState_of_empty initState rfl, hbt1]
    rfl
  have e2 : processBlock title sec sub 1 stHead1 (txtBlock "Experience" tH)
      = stHead2 := by
    rw [processBlock_sub title sec sub 1 stHead1 _ rfl
      (by rw [hbt2]; decide) (by rw [hms2]; exact hclH)]
    rw [flushState_of_empty stHead1 rfl, hbt2]
    rfl
  have e3 : processBlock title sec sub 1 stHead2 (txtBlock b1 tB)
      = stBody1 b1 := by
    rw [processBlock_body_new_empty title sec sub 1 stHead2 _ rfl
      (by rw [hbt3]; exact hb1) (by rw [hms3]; exact hclB)
      (by decide) (by decide) rfl]
    rw [hbt3]
    rw [show buildHierarchy stHead2 = "Resume Title | Experience" from rfl]
    rfl
  have e4 : processBlock title sec sub 2 (stBody1 b1) (txtBlock "Education" tH)
      = stEdu b1 := by
    rw [processBlock_sub title sec sub 2 (stBody1 b1) _ rfl
      (by rw [hbt4]; decide) (by rw [hms4]; exact hclH)]
    rw [flushState_of_ne (stBody1 b1) (by exact hb1)]
    rw [hbt4]
    rw [show (stBody1 b1).aggBuf = trimSpace b1 from rfl, trimSpace_idem]
    rfl
  have e5 : processBlock title sec sub 2 (stEdu b1) (txtBlock b2 tB)
      = stBody2 b1 b2 := by
    rw [processBlock_body_new_empty title sec sub 2 (stEdu b1) _ rfl
      (by rw [hbt5]; exact hb2) (by rw [hms5]; exact hclB)
      (by rw [show buildHierarchy (stEdu b1) = "Resume Title | Education"
              from rfl]
          decide)
      (by rw [show buildHierarchy (stEdu b1) = "Resume Title | Education"
              from rfl,
            show (stEdu b1).aggHierarchy = "Resume Title | Experience" from rfl]
          decide)
      rfl]
    rw [hbt5]
    rw [show buildHierarchy (stEdu b1) = "Resume Title | Education" from rfl]
    rfl
  have e6 : processBlock title sec sub 3 (stBody2 b1 b2) imgBlock
      = stBody2 b1 b2 :=
    processBlock_nonText title sec sub 3 _ imgBlock (by decide)
  rw [resumeDoc, processPagesFrom_cons, processPagesFrom_cons,
    processPagesFrom_cons, processPagesFrom_nil]
  have hp1 : processPage title sec sub 1 initState
      { blocks := [txtBlock "Resume Title" tT, txtBlock "Experience" tH,
          txtBlock b1 tB] }
      = stBody1 b1 := by
    show List.foldl (processBlock title sec sub 1) initState
      [txtBlock "Resume Title" tT, txtBlock "Experience" tH, txtBlock b1 tB]
      = stBody1 b1
    rw [List.foldl_cons, e1, List.foldl_cons, e2, List.foldl_cons, e3,
      List.foldl_nil]
  rw [hp1]
  have hp2 : processPage title sec sub 2 (stBody1 b1)
      { blocks := [txtBlock "Education" tH, txtBlock b2 tB] }
      = stBody2 b1 b2 := by
    show List.foldl (processBlock title sec sub 2) (stBody1 b1)
      [txtBlock "Education" tH, txtBlock b2 tB] = stBody2 b1 b2
    rw [List.foldl_cons, e4, List.foldl_cons, e5, List.foldl_nil]
  rw [hp2]
  show List.foldl (processBlock title sec sub 3) (stBody2 b1 b2) [imgBlock]
    = stBody2 b1 b2
  rw [List.foldl_cons, e6, List.foldl_nil]

/-- C3 amended: for every 3-page document of the resume shape whose three
(non-negative, ascending-to-descending) font sizes round to three pairwise
distinct buckets, and whose body paragraphs have non-blank text,
ExtractStructuredText returns exactly the two StructuredBlocks
{"Resume Title | Experience", page-1 body, 1} and
{"Resume Title | Education", page-2 body, 2} (body texts whitespace-trimmed). -/
theorem C3_resume_scenario_amended (tT tH tB : ℚ) (b1 b2 : String)
    (hB0 : 0 ≤ tB) (hBH : tB ≤ tH) (hHT : tH ≤ tT)
    (hbBH : bucket tB < bucket tH) (hbHT : bucket tH < bucket tT)
    (hb1 : trimSpace b1 ≠ "") (hb2 : trimSpace b2 ≠ "") :
    ExtractStructuredText (resumeDoc tT tH tB b1 b2) =
      Except.ok
        [ { headerHierarchy := "Resume Title | Experience",
            text := trimSpace b1, pageNumber := 1 },
          { headerHierarchy := "Resume Title | Education",
            text := trimSpace b2, pageNumber := 2 } ] := by
  have hH0 : 0 ≤ tH := le_trans hB0 hBH
  have hT0 : 0 ≤ tT := le_trans hH0 hHT
  have hneTH : bucket tT ≠ bucket tH := ne_of_gt hbHT
  have hneTB : bucket tT ≠ bucket tB := ne_of_gt (lt_trans hbBH hbHT)
  have hneHB : bucket tH ≠ bucket tB := ne_of_gt hbBH
  have hfreq : (resumeDoc tT tH tB b1 b2).foldl updateFontFreq []
      = [(bucket tT, 1), (bucket tH, 2), (bucket tB, 2)] := by
    rw [resumeDoc, List.foldl_cons, List.foldl_cons, List.foldl_cons,
      List.foldl_nil, updateFontFreq_eq_incrAll, updateFontFreq_eq_incrAll,
      updateFontFreq_eq_incrAll]
    rw [show textLineBuckets
        { blocks := [txtBlock "Resume Title" tT, txtBlock "Experience" tH,
            txtBlock b1 tB] }
        = [bucket tT, bucket tH, bucket tB] from rfl]
    rw [show textLineBuckets
        { blocks := [txtBlock "Education" tH, txtBlock b2 tB] }
        = [bucket tH, bucket tB] from rfl]
    rw [show textLineBuckets { blocks := [imgBlock] } = ([] : List ℤ) from rfl]
    simp only [incrAll, List.foldl_cons, List.foldl_nil]
    have s2 : incr [(bucket tT, 1)] (bucket tH)
        = [(bucket tT, 1), (bucket tH, 1)] := by
      simp [incr, hneTH]
    have s3 : incr [(bucket tT, 1), (bucket tH, 1)] (bucket tB)
        = [(bucket tT, 1), (bucket tH, 1), (bucket tB, 1)] := by
      simp [incr, hneTB, hneHB]
    have s4 : incr [(bucket tT, 1), (bucket tH, 1), (bucket tB, 1)] (bucket tH)
        = [(bucket tT, 1), (bucket tH, 2), (bucket tB, 1)] := by
      simp [incr, hneTH]
    have s5 : incr [(bucket tT, 1), (bucket tH, 2), (bucket tB, 1)] (bucket tB)
        = [(bucket tT, 1), (bucket tH, 2), (bucket tB, 2)] := by
      simp [incr, hneTB, hneHB]
    rw [show incr [] (bucket tT) = [(bucket tT, 1)] from rfl, s2, s3, s4, s5]
  have hsort : sortDesc [bucket tT, bucket tH, bucket tB]
      = [bucket tT, bucket tH, bucket tB] := by
    rw [sortDesc, List.foldr_cons, List.foldr_cons, List.foldr_cons,
      List.foldr_nil]
    rw [show insertDesc (bucket tB) [] = [bucket tB] from rfl]
    rw [insertDesc_of_le _ _ _ (le_of_lt hbBH),
      insertDesc_of_le _ _ _ (le_of_lt hbHT)]
  have hth : thresholdsFromFreq
      [(bucket tT, 1), (bucket tH, 2), (bucket tB, 2)]
      = Except.ok (((bucket tT : ℤ) : ℚ), ((bucket tH : ℤ) : ℚ),
          ((bucket tB : ℤ) : ℚ)) := by
    rw [thresholdsFromFreq, if_neg (by simp)]
    rw [show ([(bucket tT, 1), (bucket tH, 2), (bucket tB, 2)]
        : List (ℤ × ℕ)).map Prod.fst
      = [bucket tT, bucket tH, bucket tB] from rfl]
    rw [hsort]
  have hclT := classify_shift_top tT tH tB hB0 hBH hHT hbHT
  have hclH := classify_shift_mid tT tH tB hB0 hBH hHT hbBH hbHT
  have hclB := classify_shift_low tT tH tB hB0 hBH hHT hbBH hbHT
  rw [ExtractStructuredText, extractK_eq_single batchSize (by decide) _,
    extractSingleBatch, if_neg (by simp [resumeDoc]), hfreq, hth]
  show Except.ok
      (flushState (processBatch ((bucket tT : ℤ) : ℚ) ((bucket tH : ℤ) : ℚ)
        ((bucket tB : ℤ) : ℚ) 1 (resumeDoc tT tH tB b1 b2) initState)).blocks
    = _
  rw [processBatch_eq_from,
    resume_pass2 _ _ _ tT tH tB b1 b2 hclT hclH hclB hb1 hb2 hT0 hH0 hB0]
  rw [flushState_of_ne (stBody2 b1 b2) (by exact hb2)]
  rw [show (stBody2 b1 b2).aggBuf = trimSpace b2 from rfl, trimSpace_idem]
  rfl

theorem C3_resume_scenario_amended_witness :
    ExtractStructuredText (resumeDoc 24 18 11 "Did things." "Learned things.") =
      Except.ok
        [ { headerHierarchy := "Resume Title | Experience",
            text := trimSpace "Did things.", pageNumber := 1 },
          { headerHierarchy := "Resume Title | Education",
            text := trimSpace "Learned things.", pageNumber := 2 } ] :=
  C3_resume_scenario_amended 24 18 11 "Did things." "Learned things."
    (by decide) (by decide) (by decide) (by decide) (by decide)
    (by decide) (by decide)

/-! ### Output invariants (C10) -/

theorem classify_cases (title sec sub sz : ℚ) :
    classify title sec sub sz = "Title" ∨ classify title sec sub sz = "Section" ∨
    classify title sec sub sz = "Subsection" ∨ classify title sec sub sz = "" := by
  rw [classify]
  split_ifs with h1 h2 h3
  · exact Or.inl rfl
  · exact Or.inr (Or.inl rfl)
  · exact Or.inr (Or.inr (Or.inl rfl))
  · exact Or.inr (Or.inr (Or.inr rfl))

theorem processBlock_body_merge_empty (title sec sub : ℚ) (n : ℕ)
    (st : AggState) (blk : Block) (h1 : blk.type = "text")
    (h2 : blockText blk ≠ "")
    (h3 : classify title sec sub (blockMaxSize blk) = "")
    (h4 : buildHierarchy st = st.aggHierarchy) (h5 : st.aggHierarchy ≠ "")
    (h6 : st.aggBuf = "") :
    processBlock title sec sub n st blk
      = { st with aggBuf := blockText blk } := by
  rw [processBlock, if_neg (by simp [h1])]
  simp only [h2, if_neg, h3]
  simp [h4, h5, h6, empty_append_str]

/-- What every emitted StructuredBlock must satisfy. -/
def GoodBlock (b : StructuredBlock) : Prop :=
  b.text ≠ "" ∧ trimSpace b.text = b.text ∧ b.headerHierarchy ≠ ""

/-- Pass-2 state invariant: a non-empty aggregate buffer contains visible
text and belongs to a non-empty hierarchy, and all emitted blocks are good. -/
def GoodState (st : AggState) : Prop :=
  (st.aggBuf = "" ∨
    ((∃ c ∈ st.aggBuf.data, c.isWhitespace = false) ∧ st.aggHierarchy ≠ "")) ∧
  ∀ b ∈ st.blocks, GoodBlock b

theorem goodState_init : GoodState initState := by
  constructor
  · exact Or.inl rfl
  · intro b hb
    cases hb

theorem flushState_preserves (st : AggState) (hst : GoodState st) :
    GoodState (flushState st) := by
  by_cases hbuf : st.aggBuf = ""
  · rw [flushState_of_empty st hbuf]
    exact hst
  · rw [flushState_of_ne st hbuf]
    rcases hst.1 with h | ⟨hw, hh⟩
    · exact absurd h hbuf
    constructor
    · exact Or.inl rfl
    · intro b hb
      rw [List.mem_append] at hb
      rcases hb with hb | hb
      · exact hst.2 b hb
      · rw [List.mem_singleton] at hb
        subst hb
        exact ⟨trimSpace_ne_of_exists _ hw, trimSpace_idem _, hh⟩

theorem processBlock_preserves (title sec sub : ℚ) (n : ℕ) (st : AggState)
    (blk : Block) (hst : GoodState st) :
    GoodState (processBlock title sec sub n st blk) := by
  by_cases ht : blk.type = "text"
  · by_cases htx : blockText blk = ""
    · rw [processBlock_emptyText title sec sub n st blk ht htx]
      exact hst
    · have htw : ∃ c ∈ (blockText blk).data, c.isWhitespace = false :=
        exists_nonwhite_of_trimSpace_ne (blockLineText blk) htx
      rcases classify_cases title sec sub (blockMaxSize blk) with hc | hc | hc | hc
      · rw [processBlock_title title sec sub n st blk ht htx hc]
        exact flushState_preserves st hst
      · rw [processBlock_sec title sec sub n st blk ht htx hc]
        exact flushState_preserves st hst
      · rw [processBlock_sub title sec sub n st blk ht htx hc]
        exact flushState_preserves st hst
      · by_cases hh : buildHierarchy st = ""
        · rw [processBlock_body_skip title sec sub n st blk ht htx hc hh]
          exact hst
        · by_cases heq : buildHierarchy st = st.aggHierarchy
          · have hhier : st.aggHierarchy ≠ "" := heq ▸ hh
            by_cases hbuf : st.aggBuf = ""
            · rw [processBlock_body_merge_empty title sec sub n st blk ht htx
                hc heq hhier hbuf]
              exact ⟨Or.inr ⟨htw, hhier⟩, hst.2⟩
            · rw [processBlock_body_merge title sec sub n st blk ht htx hc heq
                hhier hbuf]
              refine ⟨Or.inr ⟨?_, hhier⟩, hst.2⟩
              obtain ⟨c, hcmem, hcw⟩ := htw
              refine ⟨c, ?_, hcw⟩
              rw [data_append, data_append]
              exact List.mem_append.mpr (Or.inr hcmem)
          · by_cases hbuf : st.aggBuf = ""
            · rw [processBlock_body_new_empty title sec sub n st blk ht htx hc
                hh heq hbuf]
              exact ⟨Or.inr ⟨htw, hh⟩, hst.2⟩
            · rw [processBlock_body_new title sec sub n st blk ht htx hc hh heq
                hbuf]
              rcases hst.1 with h | ⟨hw, hhier⟩
              · exact absurd h hbuf
              refine ⟨Or.inr ⟨htw, hh⟩, ?_⟩
              intro b hb
              rw [List.mem_append] at hb
              rcases hb with hb | hb
              · exact hst.2 b hb
              · rw [List.mem_singleton] at hb
                subst hb
                exact ⟨trimSpace_ne_of_exists _ hw, trimSpace_idem _, hhier⟩
  · rw [processBlock_nonText title sec sub n st blk ht]
    exact hst

theorem foldl_processBlock_preserves (title sec sub : ℚ) (n : ℕ)
    (bl : List Block) (st : AggState) (hst : GoodState st) :
    GoodState (bl.foldl (processBlock title sec sub n) st) := by
  induction bl generalizing st with
  | nil => exact hst
  | cons b rest ih =>
      rw [List.foldl_cons]
      exact ih _ (processBlock_preserves title sec sub n st b hst)

theorem processPagesFrom_preserves (title sec sub : ℚ) (start : ℕ)
    (doc : List Page) (st : AggState) (hst : GoodState st) :
    GoodState (processPagesFrom title sec sub start doc st) := by
  induction doc generalizing start st with
  | nil => exact hst
  | cons p rest ih =>
      rw [processPagesFrom_cons]
      apply ih
      exact foldl_processBlock_preserves title sec sub start p.blocks st hst

/-- C10: every StructuredBlock emitted by ExtractStructuredText has non-empty
whitespace-trimmed text (the trimmed aggregate buffer) and a non-empty
heading-hierarchy string. -/
theorem C10_output_invariants (doc : List Page) (bs : List StructuredBlock)
    (hok : ExtractStructuredText doc = Except.ok bs) :
    ∀ b ∈ bs, b.text ≠ "" ∧ trimSpace b.text = b.text ∧
      b.headerHierarchy ≠ "" := by
  rw [ExtractStructuredText, extractK_eq_single batchSize (by decide) doc,
    extractSingleBatch] at hok
  by_cases hlen : doc.length = 0
  · rw [if_pos hlen] at hok
    exact absurd hok (fun h => Except.noConfusion h)
  · rw [if_neg hlen] at hok
    cases hth : thresholdsFromFreq (doc.foldl updateFontFreq []) with
    | error e =>
        rw [hth] at hok
        exact absurd hok (fun h => Except.noConfusion h)
    | ok t3 =>
        obtain ⟨t, s, u⟩ := t3
        rw [hth] at hok
        have hbs : (flushState (processBatch t s u 1 doc initState)).blocks
            = bs := by
          have := hok
          simp only [Except.ok.injEq] at this
          exact this
        have hgood : GoodState (flushState (processBatch t s u 1 doc initState)) := by
          apply flushState_preserves
          rw [processBatch_eq_from]
          exact processPagesFrom_preserves t s u 1 doc initState goodState_init
        intro b hb
        rw [← hbs] at hb
        exact hgood.2 b hb

theorem C10_output_invariants_witness :
    ({ headerHierarchy := "Heading", text := "First body.", pageNumber := 1 }
      : StructuredBlock).text ≠ "" :=
  (C10_output_invariants staleDoc
    [ { headerHierarchy := "Heading", text := "First body.", pageNumber := 1 },
      { headerHierarchy := "Heading", text := "Second body.", pageNumber := 1 } ]
    (by decide)
    { headerHierarchy := "Heading", text := "First body.", pageNumber := 1 }
    (by decide)).1
